import Mathlib

/-!
Shallow embedding of the perseus-citation-processor Reference Resolution Core.

Go strings are modelled as `List Char` (`Str`); Go maps as association lists
`List (key × value)`, where the list order models Go's (unspecified) map
iteration order.  Map lookup (`List.lookup`) is order-independent for lists
with no duplicate keys, matching Go map lookup; table scans
(`for k := range m`) read the association list left to right, so reordering
the list models a different map iteration order of the same map value.

Sources embedded:
- src/pkg/loader/data_loader.go   (GenerateWorkAbbreviations,
  generateSmartSuspension, expandWorkTitles, ResolveLatinAuthorFunction,
  WorkURN).
- src/pkg/resolver/resolver.go    (GetRef, GetURN, parseReference,
  resolveAuthor, getWorkURN, constructNumericWorkURN, handleWorkRange,
  handleSingleWorkAuthor, detectURN, formatExistingURN and helpers).
-/

abbrev Str := List Char

/-- Go `strings.ToLower` (the data processed by this program is ASCII). -/
def toLowerS (s : Str) : Str := s.map Char.toLower

/-- Go `\s` character class / `unicode.IsSpace` on the program's data. -/
def isSpaceChar (c : Char) : Bool :=
  c = ' ' || c = '\t' || c = '\n' || c = '\r' || c = Char.ofNat 12

/-- ASCII letter, Go regexp class `[A-Za-z]`. -/
def isAsciiLetter (c : Char) : Bool :=
  ('a' ≤ c && c ≤ 'z') || ('A' ≤ c && c ≤ 'Z')

/-- Go `strings.TrimSpace`. -/
def trimS (s : Str) : Str :=
  ((s.dropWhile isSpaceChar).reverse.dropWhile isSpaceChar).reverse

/-- Go `strings.Fields`: split on whitespace runs, no empty fields. -/
def fieldsS (s : Str) : List Str :=
  (s.splitOnP isSpaceChar).filter (· ≠ [])

/-- Go `strings.Join l sep`. -/
def joinS (sep : Str) (l : List Str) : Str := List.intercalate sep l

/-- Go `strings.HasPrefix` / `strings.HasSuffix`. -/
def hasPrefixS (s p : Str) : Bool := p.isPrefixOf s

def hasSuffixS (s p : Str) : Bool := p.reverse.isPrefixOf s.reverse

/-- Go `strings.TrimSuffix`. -/
def trimSuffixS (s p : Str) : Str :=
  if hasSuffixS s p then s.take (s.length - p.length) else s

/-- Go `strings.Trim s cutset` for a one-character cutset. -/
def trimCharS (c : Char) (s : Str) : Str :=
  ((s.dropWhile (· = c)).reverse.dropWhile (· = c)).reverse

/-- Go `strings.Contains`. -/
def containsS (s sub : Str) : Bool :=
  match s with
  | [] => sub.isPrefixOf []
  | _ :: t => if sub.isPrefixOf s then true else containsS t sub

/-- Go map lookup on an association list. -/
def lookupS (m : List (Str × α)) (k : Str) : Option α := List.lookup k m

/-- Go `strings.ReplaceAll` for a non-empty literal pattern
(left-to-right, non-overlapping).  Structural recursion on a fuel that
bounds the input length, so that the kernel can evaluate it. -/
def replaceAllAux (pat rep : Str) : Nat → Str → Str
  | _, [] => []
  | 0, s => s
  | fuel + 1, c :: t =>
    if pat ≠ [] && pat.isPrefixOf (c :: t) then
      rep ++ replaceAllAux pat rep fuel ((c :: t).drop pat.length)
    else c :: replaceAllAux pat rep fuel t

def replaceAllS (s pat rep : Str) : Str := replaceAllAux pat rep s.length s

/-- Replace every maximal non-empty run of `p`-characters by the single
character `rep` (Go `regexp.ReplaceAllString` for patterns like `\s+`). -/
def collapseRunsAux (p : Char → Bool) (rep : Char) (inRun : Bool) : Str → Str
  | [] => []
  | c :: t =>
    if p c then
      if inRun then collapseRunsAux p rep true t
      else rep :: collapseRunsAux p rep true t
    else c :: collapseRunsAux p rep false t

def collapseRuns (p : Char → Bool) (rep : Char) (s : Str) : Str :=
  collapseRunsAux p rep false s

/-- Digits of a natural number (Go `%d`); fuel-based structural recursion
(`n + 1` fuel always suffices). -/
def natDigitsAux : Nat → Nat → Str
  | 0, _ => []
  | fuel + 1, n =>
    if n < 10 then [Char.ofNat ('0'.toNat + n)]
    else natDigitsAux fuel (n / 10) ++ [Char.ofNat ('0'.toNat + n % 10)]

def natDigits (n : Nat) : Str := natDigitsAux (n + 1) n

/-- Go `fmt.Sprintf "%03d"` for a natural number. -/
def pad3 (n : Nat) : Str :=
  let d := natDigits n
  if d.length < 3 then List.replicate (3 - d.length) '0' ++ d else d

/-- Go `strconv.Atoi` on an all-digit string (the program only converts
strings matched by `\d+`; overflow cannot make an in-range comparison
succeed, so unbounded `Nat` is extensionally faithful here). -/
def natOfDigits (s : Str) : Nat :=
  s.foldl (fun n c => n * 10 + (c.toNat - '0'.toNat)) 0

/-! ## Loader: src/pkg/loader/data_loader.go -/

/-- `loader.WorkURN`: either a single work code (`Simple`) or a family
`Prefix + zero-padded(n)` for `n` in `[Start, End]` (`Range`).  The loader
decodes the polymorphic JSON value (string vs 3-element array) into exactly
these two shapes, so the resolver's `urn.(string)` / `urn.([]interface{})`
type inspections correspond to the `simple` / `range` cases. -/
inductive WorkURN where
  | simple : Str → WorkURN
  | range : (pfx : Str) → (start : Int) → (stop : Int) → WorkURN
deriving DecidableEq

/-- A value of the author-abbreviation map: either a plain string (canonical
key or a `_which_*` marker string), or a non-string (function) value as the
Latin table may contain (`map[string]any`). -/
inductive AbbVal where
  | str : Str → AbbVal
  | fn : AbbVal
deriving DecidableEq

/-- Function words skipped by the abbreviation generator
(`funcWords` in data_loader.go). -/
def funcWords : List Str :=
  ["the", "a", "an", "of", "in", "by", "for", "on", "and", "de", "ad"].map String.data

def isVowel (c : Char) : Bool := ['a', 'e', 'i', 'o', 'u', 'y'].contains c

def isPlosive (c : Char) : Bool := ['t', 'p', 'd', 'g', 'k', 'x', 'c', 'b'].contains c

/-- Character walk of `generateSmartSuspension`: accumulate a buffer that
starts capturing once a vowel is seen, stops when a second vowel run begins
after an intervening consonant, and stops right after a plosive that follows
a vowel (`vowelSeen` / `consLastSeen` state in the Go loop). -/
def suspWordAux : Str → Bool → Bool → Str
  | [], _, _ => []
  | c :: r, vs, cl =>
    if isVowel c then
      if vs && cl then []
      else c :: suspWordAux r true false
    else
      if vs && isPlosive c then [c]
      else c :: suspWordAux r vs true

/-- Turn each space into an underscore (Go `strings.ReplaceAll s " " "_"`,
which for the one-character pattern is a character map). -/
def underscoreSpace (c : Char) : Char := if c = ' ' then '_' else c

/-- `loader.generateSmartSuspension`. -/
def generateSmartSuspension (title : Str) (skipDe : Bool) : Str :=
  let words := fieldsS (title.map underscoreSpace)
  let suspensions := words.filterMap fun word =>
    if word = "de".data || word = "on".data then
      if skipDe then none else some word
    else if funcWords.contains word then none
    else
      let buffer := suspWordAux word false false
      if buffer = [] then none else some buffer
  if suspensions = [] then []
  else
    let result := joinS ['.'] suspensions
    if hasSuffixS result ['.'] then result else result ++ ['.']

/-- `addAbbrev` in `GenerateWorkAbbreviations`: append unless empty or
already present (the Go `existing` map tracks exactly the appended strings). -/
def addAbbrev (acc : List Str) (a : Str) : List Str :=
  if a ≠ [] && !acc.contains a then acc ++ [a] else acc

def initialsOf (ws : List Str) : Str := (ws.map (·.take 1)).flatten

def dotInitialsOf (ws : List Str) : Str := (ws.map (·.take 1 ++ ['.'])).flatten

def underInitialsOf (ws : List Str) : Str :=
  trimSuffixS ((ws.map (·.take 1 ++ ['_'])).flatten) ['_']

def dotUnderInitialsOf (ws : List Str) : Str :=
  trimSuffixS ((ws.map (·.take 1 ++ ['.', '_'])).flatten) ['.', '_'] ++ ['.']

def initialsBlock (ws : List Str) : List Str :=
  [initialsOf ws, dotInitialsOf ws, underInitialsOf ws, dotUnderInitialsOf ws]

/-- The candidate abbreviations of `GenerateWorkAbbreviations`, in the exact
order the Go function feeds them to `addAbbrev` (`title` is already
lowercased and has a non-empty word list).  The Go code interleaves the
candidate construction with the `addAbbrev` calls; the candidates do not
depend on the accumulator, so the run is the fold of `addAbbrev` over this
list. -/
def abbrevCandidates (title : Str) : List Str :=
  let words := fieldsS title
  let w0 := words.headD []
  (if words.length = 1 then
    if hasSuffixS title ['s'] then [title.dropLast ++ ['a']]
    else if hasSuffixS title ['a'] then [title.dropLast ++ ['s']]
    else []
  else []) ++
  [title.take 1, title.take 1 ++ ['.']] ++
  ((List.range' 2 5).flatMap fun i =>
    if i ≤ w0.length then [w0.take i, w0.take i ++ ['.']] else []) ++
  (if words.length > 1 then
    initialsBlock words ++
    (if words.any (funcWords.contains ·) then
      initialsBlock (words.filter (fun w => !funcWords.contains w))
    else []) ++
    [w0]
  else []) ++
  (if words.length > 2 then
    [joinS [' '] (words.take 2), (joinS [' '] (words.take 2)).map underscoreSpace]
  else []) ++
  (if words.length > 3 then
    [joinS [' '] (words.take 3), (joinS [' '] (words.take 3)).map underscoreSpace]
  else []) ++
  [generateSmartSuspension title true, generateSmartSuspension title false] ++
  (if words.length > 1 then [title.map underscoreSpace] else []) ++
  [title]

/-- `loader.GenerateWorkAbbreviations`. -/
def GenerateWorkAbbreviations (title0 : Str) : List Str :=
  let title := toLowerS title0
  if title ≠ [] && title.all Char.isDigit then []
  else if fieldsS title = [] then []
  else (abbrevCandidates title).foldl addAbbrev []

/-- Go map assignment `m[k] = v` on an association list: replace the
binding if the key is present, else append. -/
def insertA (m : List (Str × WorkURN)) (k : Str) (v : WorkURN) : List (Str × WorkURN) :=
  if (lookupS m k).isSome then m.map (fun kv => if kv.1 = k then (k, v) else kv)
  else m ++ [(k, v)]

/-- `if _, exists := m[k]; !exists { m[k] = v }`. -/
def insertIfAbsent (m : List (Str × WorkURN)) (k : Str) (v : WorkURN) : List (Str × WorkURN) :=
  if (lookupS m k).isSome then m else m ++ [(k, v)]

/-- The loop body of `loader.expandWorkTitles` for one `(work, urn)`
entry: set the literal title unconditionally, then add each generated
abbreviation only if absent. -/
def expandStep (acc : List (Str × WorkURN)) (wu : Str × WorkURN) : List (Str × WorkURN) :=
  (GenerateWorkAbbreviations wu.1).foldl (fun a ab => insertIfAbsent a ab wu.2)
    (insertA acc wu.1 wu.2)

/-- One author's pass of `loader.expandWorkTitles`: the same loop body is
applied to every author's work table of each of the four traditions
(Greek, Latin, Schol, Other). -/
def expandAuthorWorks (works : List (Str × WorkURN)) : List (Str × WorkURN) :=
  works.foldl expandStep []

/-! ## The loaded reference data, as the resolver consumes it

`resolver.URNResolver` reads the loaded data only through the views
`GetAllAuthAbb` / `GetAllAuthors` / `GetAllWorkURNs` / `GetAllAuthURNs` /
`IsSingleWorkAuthor` (merged across the four traditions), plus the
Latin-only tables used by `ResolveLatinAuthorFunction`.  `Store` models
exactly these views. -/

structure Store where
  allAuthAbb : List (Str × AbbVal)
  allAuthors : List Str
  allWorkURNs : List (Str × List (Str × WorkURN))
  allAuthURNs : List (Str × Str)
  singleWorkAuthors : List Str
  latinAuthAbb : List (Str × AbbVal)
  latinWorkURNs : List (Str × List (Str × WorkURN))

/-- Exact-title hit of a work table (`if _, exists := works[work]`). -/
def tableHasWork (tbl : List (Str × WorkURN)) (w : Str) : Bool :=
  (lookupS tbl w).isSome

/-- The `for title := range works { for _, abbrev := range Generate(title) {
if abbrev == work { return X } } }` scan: every hit returns the same
constant, so the loop is the `any` of its per-title test. -/
def tableHasAbbrevMatch (tbl : List (Str × WorkURN)) (w : Str) : Bool :=
  tbl.any fun tw => (GenerateWorkAbbreviations tw.1).contains w

/-- One candidate identity's check block of `ResolveLatinAuthorFunction`:
the `!= nil` guard, then the exact-title lookup, then the
generated-abbreviation scan (both return the same identity, so the block
is a Boolean hit test). -/
def identityHit (d : Store) (key w : Str) : Bool :=
  match lookupS d.latinWorkURNs key with
  | some tbl => tableHasWork tbl w || tableHasAbbrevMatch tbl w
  | none => false

/-- `loader.ResolveLatinAuthorFunction`. -/
def ResolveLatinAuthorFunction (d : Store) (abb work : Str) : Str :=
  match lookupS d.latinAuthAbb abb with
  | none => []
  | some v =>
    let direct : Option Str :=
      match v with
      | .str s =>
        if s ≠ "_which_pliny".data && s ≠ "_which_seneca".data then some s else none
      | .fn => none
    match direct with
    | some s => s
    | none =>
      if abb = "plin.".data ∨ abb = "pliny".data then
        let w := toLowerS work
        if identityHit d "pliny_senior".data w then "pliny_senior".data
        else if identityHit d "pliny_junior".data w then "pliny_junior".data
        else "pliny_senior".data
      else if abb = "sen.".data ∨ abb = "seneca".data then
        let w := toLowerS work
        if identityHit d "seneca_senior".data w then "seneca_senior".data
        else if identityHit d "seneca_junior".data w then "seneca_junior".data
        else "seneca_junior".data
      else []

/-! ## Resolver: src/pkg/resolver/resolver.go

Regular expressions are embedded with a Brzozowski-derivative matcher; Go's
`regexp.MatchString` asks only whether a match occurs anywhere, i.e.
membership in `Σ* · r · Σ*`. -/

inductive RE where
  | eps : RE
  | cls : (Char → Bool) → RE
  | seq : RE → RE → RE
  | alt : RE → RE → RE
  | star : RE → RE

def RE.nullable : RE → Bool
  | .eps => true
  | .cls _ => false
  | .seq a b => a.nullable && b.nullable
  | .alt a b => a.nullable || b.nullable
  | .star _ => true

def RE.deriv : RE → Char → RE
  | .eps, _ => .cls fun _ => false
  | .cls p, c => if p c then .eps else .cls fun _ => false
  | .seq a b, c =>
    if a.nullable then .alt (.seq (a.deriv c) b) (b.deriv c) else .seq (a.deriv c) b
  | .alt a b, c => .alt (a.deriv c) (b.deriv c)
  | .star r, c => .seq (r.deriv c) (.star r)

def RE.matchesL (r : RE) : Str → Bool
  | [] => r.nullable
  | c :: s => (r.deriv c).matchesL s

def REany : RE := .cls fun _ => true

/-- Go `regexp.MatchString`: does a match occur anywhere in `s`? -/
def matchStringGo (r : RE) (s : Str) : Bool :=
  (RE.seq (.star REany) (RE.seq r (.star REany))).matchesL s

def REchr (c : Char) : RE := .cls (· = c)

def RElit (s : Str) : RE := s.foldr (fun c r => .seq (REchr c) r) .eps

def REplus (r : RE) : RE := .seq r (.star r)

def REopt (r : RE) : RE := .alt .eps r

def REcat (l : List RE) : RE := l.foldr .seq .eps

/-- `[a-zA-Z]+\.?\s?[a-zA-Z]*` — the loose author/work token of GetRef. -/
def REtoken : RE :=
  REcat [REplus (.cls isAsciiLetter), REopt (REchr '.'), REopt (.cls isSpaceChar),
         .star (.cls isAsciiLetter)]

def REdigits : RE := REplus (.cls Char.isDigit)

/-- `(\s|\.|:)` -/
def REsep : RE := .cls fun c => isSpaceChar c || c = '.' || c = ':'

/-- The four ranked GetRef patterns, best to worst. -/
def getRefPatterns : List RE :=
  [ REcat [REtoken, RElit " ".data, REtoken, RElit " ".data, REdigits, REsep, REdigits],
    REcat [REtoken, RElit " ".data, REtoken, RElit " ".data, REdigits],
    REcat [REplus (.cls isAsciiLetter), REopt (REchr '.'), RElit " ".data, REdigits, REsep,
           REdigits],
    REcat [REplus (.cls isAsciiLetter), REopt (REchr '.'), RElit " ".data, REdigits] ]

/-! Cleaning helpers of GetRef (lines 39-58).  The scanners below use a
fuel argument bounding the input length so that recursion stays structural;
each step consumes at least one character, so `s.length` fuel is exact. -/

/-- Index of the first `'>'` occurring before any newline
(the closer of the non-greedy `<title.*?>`). -/
def findCloser : Str → Option Nat
  | [] => none
  | c :: r =>
    if c = '>' then some 0 else if c = '\n' then none else (findCloser r).map (· + 1)

/-- `regexp.ReplaceAllString` of `<title.*?>` with the empty string. -/
def removeTitleTagsAux : Nat → Str → Str
  | _, [] => []
  | 0, s => s
  | fuel + 1, c :: t =>
    if "<title".data.isPrefixOf (c :: t) then
      match findCloser ((c :: t).drop 6) with
      | some k => removeTitleTagsAux fuel (((c :: t).drop 6).drop (k + 1))
      | none => c :: removeTitleTagsAux fuel t
    else c :: removeTitleTagsAux fuel t

def removeTitleTags (s : Str) : Str := removeTitleTagsAux s.length s

/-- The two-byte sequence appearing literally in the Go source's
section-symbol pattern ` *ยง *`. -/
def sectionMark : Str := ['ย', 'ง']

/-- `regexp.ReplaceAllString` of ` *ยง *` with `"."`: each marker, with the
maximal space runs around it, becomes one period. -/
def sectionToDotAux : Nat → Str → Str
  | _, [] => []
  | 0, s => s
  | fuel + 1, c :: t =>
    let sp := (c :: t).dropWhile (· = ' ')
    if sectionMark.isPrefixOf sp then
      '.' :: sectionToDotAux fuel ((sp.drop 2).dropWhile (· = ' '))
    else c :: sectionToDotAux fuel t

def sectionToDot (s : Str) : Str := sectionToDotAux s.length s

/-- `regexp.ReplaceAllString` of `(\d+) ([A-Za-z])` with `$1$2`: close up a
single space between a digit run and an ASCII letter, resuming after the
letter. -/
def closeDigitLetterAux : Nat → Str → Str
  | _, [] => []
  | 0, s => s
  | fuel + 1, c :: t =>
    if c.isDigit then
      let run := (c :: t).takeWhile Char.isDigit
      let rest := (c :: t).dropWhile Char.isDigit
      match rest with
      | ' ' :: l :: r =>
        if isAsciiLetter l then run ++ l :: closeDigitLetterAux fuel r
        else run ++ closeDigitLetterAux fuel rest
      | _ => run ++ closeDigitLetterAux fuel rest
    else c :: closeDigitLetterAux fuel t

def closeDigitLetter (s : Str) : Str := closeDigitLetterAux s.length s

/-- The per-candidate cleaning loop of GetRef (lines 39-58), applied to a
candidate that already went through the initial lower/trim of lines 30-35. -/
def cleanRef (s : Str) : Str :=
  if s = [] then s
  else
    let r := trimS (collapseRuns isSpaceChar ' ' s)
    let r := removeTitleTags r
    let r := replaceAllS r "</title>".data []
    let r := r.filter fun c => c ≠ '(' && c ≠ ')'
    let r := replaceAllS r ", ".data " ".data
    let r := sectionToDot r
    closeDigitLetter r

/-- Lines 30-35 of GetRef: lowercase and trim a non-empty candidate. -/
def preNorm (s : Str) : Str := if s = [] then s else toLowerS (trimS s)

/-- The full normalization GetRef applies to each candidate. -/
def normalizeRef (s : Str) : Str := cleanRef (preNorm s)

/-! Embedded-URN detection (detectURN, lines 282-296).  The three patterns
`tlg\d+\.tlg\d+(:\d+.?\d*)?(ff)?` (and `phi`/`stoa` alike) are matched with
Go's leftmost, Perl-greedy semantics, specialised to this pattern shape:
greedy digit runs, the optional colon group taken whenever a colon and at
least one digit follow, the `.?` consuming any non-newline character when
present, and `(ff)?` taken whenever the next two characters are `ff`. -/

def spanDigits (s : Str) : Str × Str := (s.takeWhile Char.isDigit, s.dropWhile Char.isDigit)

/-- The optional `(:\d+.?\d*)?` group; returns (matched, rest). -/
def matchLocGroup (s : Str) : Str × Str :=
  match s with
  | ':' :: s1 =>
    let d3 := s1.takeWhile Char.isDigit
    let s2 := s1.dropWhile Char.isDigit
    if d3 = [] then ([], s)
    else
      match s2 with
      | [] => (':' :: d3, [])
      | c :: s3 =>
        if c = '\n' then (':' :: d3, s2)
        else
          let d4 := s3.takeWhile Char.isDigit
          (':' :: d3 ++ c :: d4, s3.dropWhile Char.isDigit)
  | _ => ([], s)

/-- The optional `(ff)?` group; returns (matched, rest). -/
def matchFF (s : Str) : Str × Str :=
  match s with
  | 'f' :: 'f' :: r => (['f', 'f'], r)
  | _ => ([], s)

/-- Try one tradition pattern at the start of `s`; returns (matched, rest). -/
def matchURNAt (pfx : Str) (s : Str) : Option (Str × Str) :=
  if pfx.isPrefixOf s then
    let s1 := s.drop pfx.length
    let (d1, s2) := spanDigits s1
    if d1 = [] then none
    else
      match s2 with
      | '.' :: s3 =>
        if pfx.isPrefixOf s3 then
          let s4 := s3.drop pfx.length
          let (d2, s5) := spanDigits s4
          if d2 = [] then none
          else
            let (loc, s6) := matchLocGroup s5
            let (ff, s7) := matchFF s6
            some (pfx ++ d1 ++ '.' :: pfx ++ d2 ++ loc ++ ff, s7)
        else none
      | _ => none
  else none

/-- `regexp.FindString` for one tradition pattern: leftmost match. -/
def findPat (pfx : Str) : Str → Option Str
  | [] => none
  | c :: t =>
    match matchURNAt pfx (c :: t) with
    | some (m, _) => some m
    | none => findPat pfx t

/-- `resolver.detectURN`: the `tlg` pattern over the whole string, then
`phi`, then `stoa`; empty result is modelled as `none`. -/
def detectURN (ref : Str) : Option Str :=
  match findPat "tlg".data ref with
  | some m => some m
  | none =>
    match findPat "phi".data ref with
    | some m => some m
    | none => findPat "stoa".data ref

/-- `strings.Index` + slicing: the remainder of `ref` after the first
occurrence of `sub` (callers pass a `sub` previously found in `ref`). -/
def afterFirstOccurrence (sub : Str) : Str → Str
  | [] => []
  | c :: t => if sub.isPrefixOf (c :: t) then (c :: t).drop sub.length
              else afterFirstOccurrence sub t

/-- `regexp.FindString` of `\d+.*` on `remaining`: from the first digit up
to (but excluding) the first newline after it; empty if no digit. -/
def extractLocTail (remaining : Str) : Str :=
  let r := remaining.dropWhile fun c => !c.isDigit
  if r = [] then [] else r.takeWhile (· ≠ '\n')

/-- `resolver.formatExistingURN`. -/
def formatExistingURN (ref urnPart : Str) : Str :=
  let remaining := afterFirstOccurrence urnPart ref
  let loc := extractLocTail remaining
  if containsS urnPart "tlg".data then
    let base :=
      if containsS urnPart "urn:cts:greekLit".data then urnPart
      else "urn:cts:greekLit:".data ++ urnPart
    if loc ≠ [] then base ++ ".perseus-grc2:".data ++ loc else base ++ ".perseus-grc2".data
  else if containsS urnPart "phi".data then
    let base :=
      if containsS urnPart "urn:cts:latinLit".data then urnPart
      else "urn:cts:latinLit:".data ++ urnPart
    if loc ≠ [] then base ++ ".perseus-lat2:".data ++ loc else base ++ ".perseus-lat2".data
  else urnPart

/-- The Roman numerals I..XX recognised by the resolver. -/
def romanNumerals : List Str :=
  ["i", "ii", "iii", "iv", "v", "vi", "vii", "viii", "ix", "x",
   "xi", "xii", "xiii", "xiv", "xv", "xvi", "xvii", "xviii", "xix", "xx"].map String.data

/-- `resolver.looksLikeRomanNumeral`. -/
def looksLikeRomanNumeral (text : Str) : Bool :=
  let t := trimSuffixS (toLowerS (trimS text)) ['.']
  romanNumerals.contains t

/-- `resolver.looksLikeBookReference`. -/
def looksLikeBookReference (work : Str) : Bool :=
  let w := toLowerS (trimS work)
  romanNumerals.any (fun r => w = r || w = r ++ ['.']) ||
    (let ds := w.takeWhile Char.isDigit
     let rest := w.dropWhile Char.isDigit
     ds ≠ [] && (rest = [] || rest = ['.']))

/-- `resolver.isNumeric`: non-empty and only characters `'0'..'9'`. -/
def isNumericS (s : Str) : Bool :=
  s ≠ [] && s.all fun c => '0' ≤ c && c ≤ '9'

/-- `resolver.constructNumericWorkURN`. -/
def constructNumericWorkURN (d : Store) (author work : Str) : Str :=
  match lookupS d.allAuthURNs author with
  | none => []
  | some authURN =>
    if containsS authURN "greekLit".data then
      if hasPrefixS work "0".data then "tlg".data ++ work else "tlg0".data ++ work
    else if containsS authURN "latinLit".data then
      if hasPrefixS work "0".data then "phi".data ++ work else "phi0".data ++ work
    else []

/-- First `\d+` match of `handleWorkRange` (`FindStringSubmatch`), as a
number. -/
def firstNumberS (s : Str) : Option Nat :=
  let r := s.dropWhile fun c => !c.isDigit
  if r = [] then none else some (natOfDigits (r.takeWhile Char.isDigit))

/-- `resolver.handleWorkRange` (the tuple is a decoded `Range`). -/
def handleWorkRange (work : Str) (pfx : Str) (start stop : Int) : Str :=
  match firstNumberS work with
  | none => []
  | some num =>
    if start ≤ (num : Int) ∧ (num : Int) ≤ stop then pfx ++ pad3 num else []

/-- The `exactMatches` list of getWorkURN's scan loop (only `Simple`
values are collected). -/
def scanExact (tbl : List (Str × WorkURN)) (w : Str) : List Str :=
  tbl.filterMap fun tw =>
    if tw.1 = w then
      match tw.2 with
      | .simple s => some s
      | .range _ _ _ => none
    else none

/-- The `abbreviationMatches` list of getWorkURN's scan loop. -/
def scanAbbrev (tbl : List (Str × WorkURN)) (w : Str) : List Str :=
  tbl.filterMap fun tw =>
    if tw.1 ≠ w && (GenerateWorkAbbreviations tw.1).contains w then
      match tw.2 with
      | .simple s => some s
      | .range _ _ _ => none
    else none

/-- `resolver.getWorkURN`. -/
def getWorkURN (d : Store) (author work : Str) : Str :=
  match lookupS d.allWorkURNs author with
  | none =>
    let w := toLowerS work
    if isNumericS w then constructNumericWorkURN d author w else "tlg001".data
  | some authorWorks =>
    let w := toLowerS work
    match lookupS authorWorks w with
    | some (.simple s) => s
    | some (.range pfx start stop) => handleWorkRange w pfx start stop
    | none =>
      match scanExact authorWorks w with
      | e :: _ => e
      | [] =>
        match scanAbbrev authorWorks w with
        | m :: _ => m
        | [] =>
          if isNumericS w then constructNumericWorkURN d author w else "tlg001".data

/-- `resolver.determineLiteratureSuffix`. -/
def determineLiteratureSuffix (authURN : Str) : Str :=
  if containsS authURN "greekLit".data then "perseus-grc2".data
  else if containsS authURN "latinLit".data then "perseus-lat2".data
  else if containsS authURN "englishLit".data then "perseus-eng2".data
  else if containsS authURN "greekSchol".data then "perseus-grc2".data
  else "perseus-grc2".data

/-- `resolver.handleSingleWorkAuthor` (its `passage` argument is unused by
the Go function: the location is re-extracted from the original
reference). -/
def handleSingleWorkAuthor (d : Store) (author _passage originalRef : Str) : Str :=
  match lookupS d.allAuthURNs author with
  | none => []
  | some authURN =>
    let workURN := "tlg001".data
    let suffix := determineLiteratureSuffix authURN
    let parts := originalRef.splitOnP fun c => isSpaceChar c || c = ',' || c = '.' || c = ':'
    let numerics := parts.filter fun p => (p.headD ' ').isDigit
    if numerics ≠ [] then
      authURN ++ '.' :: workURN ++ '.' :: suffix ++ ':' :: joinS ['.'] numerics
    else authURN ++ '.' :: workURN ++ '.' :: suffix

/-- `resolver.resolveAuthor`. -/
def resolveAuthor (d : Store) (author work : Str) : Str :=
  let a := toLowerS author
  if d.allAuthors.contains a then a
  else
    match lookupS d.allAuthAbb a with
    | some (.str s) =>
      if s = "_which_pliny".data ∨ s = "_which_seneca".data then
        ResolveLatinAuthorFunction d a work
      else s
    | some .fn => ResolveLatinAuthorFunction d a work
    | none => []

/-- `resolver.processWorkTitles`: substitute a recognised multi-word work
title with its underscore-joined form (first matching span of 2..N leading
words wins; Go's `for i := 2; i <= len(words); i++`). -/
def processWorkTitles (d : Store) (author remaining : Str) : Str :=
  let resolvedAuthor := resolveAuthor d author []
  if resolvedAuthor = [] then remaining
  else
    match lookupS d.allWorkURNs resolvedAuthor with
    | none => remaining
    | some authorWorks =>
      let words := fieldsS remaining
      if words.length < 2 then remaining
      else
        match (List.range' 2 (words.length - 1)).find?
            (fun i => (lookupS authorWorks (toLowerS (joinS [' '] (words.take i)))).isSome) with
        | some i =>
          let underscored := joinS ['_'] (words.take i)
          let rest := joinS [' '] (words.drop i)
          if rest ≠ [] then underscored ++ ' ' :: rest else underscored
        | none => remaining

/-- The passage-finding loop of `parseReference` (lines 386-405): scan for
the first token starting with a digit or a Roman numeral; words before it
join as the work, it and the rest as the dot-normalised passage. -/
def findPassage (author : Str) (parts : List Str) : Str × Str × Str :=
  match parts.findIdx? (fun p => (p.headD ' ').isDigit || looksLikeRomanNumeral p) with
  | some i =>
    let work := joinS [' '] (parts.take i)
    let passage0 := joinS [' '] (parts.drop i)
    let passage := collapseRuns (· = '.') '.' (trimCharS '.' (collapseRuns isSpaceChar '.' passage0))
    (author, work, passage)
  | none => (author, joinS [' '] parts, [])

/-- `resolver.parseReference`. -/
def parseReference (d : Store) (ref : Str) : Str × Str × Str :=
  let ref := trimS ref
  let split := fieldsS ref
  match split with
  | [] => ([], [], [])
  | s0 :: _ =>
    let bigramHit :=
      split.length > 1 &&
        (let bigram := joinS [' '] (split.take 2)
         (lookupS d.allAuthAbb bigram).isSome || d.allAuthors.contains bigram)
    let author := if bigramHit then joinS [' '] (split.take 2) else s0
    let authLen := if bigramHit then 2 else 1
    if authLen ≥ split.length then (author, [], [])
    else
      let remaining := joinS [' '] (split.drop authLen)
      let remaining := processWorkTitles d author remaining
      let parts := fieldsS remaining
      match parts with
      | [] => (author, [], [])
      | [p] =>
        if p.contains '.' then
          (author, p.takeWhile (· ≠ '.'), (p.dropWhile (· ≠ '.')).drop 1)
        else findPassage author parts
      | _ => findPassage author parts

/-- The `ff`-notation normalisation at the top of GetURN (lines 211-221). -/
def ffStep (ref : Str) : Str :=
  if hasSuffixS ref "ff".data then
    if ref.length > 2 && (ref.drop (ref.length - 3)).headD ' ' = ' ' then
      ref.take (ref.length - 3) ++ ref.drop (ref.length - 2)
    else ref
  else if hasSuffixS ref "ff.".data then
    if ref.length > 3 && (ref.drop (ref.length - 4)).headD ' ' = ' ' then
      ref.take (ref.length - 4) ++ "ff".data
    else ref.take (ref.length - 3) ++ "ff".data
  else ref

/-- `resolver.GetURN` (the `resolve_identifier` entry point; failures are
the empty string). -/
def GetURN (d : Store) (ref0 : Str) : Str :=
  if ref0 = [] then []
  else
    let ref := ffStep ref0
    match detectURN ref with
    | some urnPart => formatExistingURN ref urnPart
    | none =>
      let awp := parseReference d ref
      let author := awp.1
      let work := awp.2.1
      let passage := awp.2.2
      if author = [] then []
      else
        let resolvedAuthor := resolveAuthor d author work
        if resolvedAuthor = [] then []
        else if d.singleWorkAuthors.contains resolvedAuthor && work ≠ [] &&
            looksLikeBookReference work then
          let fullPassage := if passage ≠ [] then work ++ '.' :: passage else work
          handleSingleWorkAuthor d resolvedAuthor fullPassage ref
        else if d.singleWorkAuthors.contains resolvedAuthor && work = [] then
          handleSingleWorkAuthor d resolvedAuthor passage ref
        else
          match lookupS d.allAuthURNs resolvedAuthor with
          | none => []
          | some authURN =>
            let workURN := getWorkURN d resolvedAuthor work
            if workURN = [] then []
            else
              let suffix := determineLiteratureSuffix authURN
              if passage ≠ [] then
                authURN ++ '.' :: workURN ++ '.' :: suffix ++ ':' :: passage
              else authURN ++ '.' :: workURN ++ '.' :: suffix

/-- `resolver.hasRecognizedAuthor`: unigram/bigram/trigram of the leading
tokens against the abbreviation table and the canonical author set. -/
def hasRecognizedAuthor (split : List Str) (authAbb : List (Str × AbbVal))
    (authors : List Str) : Bool :=
  (List.range' 1 3).any fun i =>
    i ≤ split.length &&
      (let candidate := joinS [' '] (split.take i)
       (lookupS authAbb candidate).isSome || authors.contains candidate)

/-- `regexp.ReplaceAllString` of `\d.*` with the empty string: drop, for
each line, everything from its first digit on. -/
def stripDigitTailsAux : Nat → Str → Str
  | _, [] => []
  | 0, s => s
  | fuel + 1, c :: t =>
    if c.isDigit then stripDigitTailsAux fuel ((c :: t).dropWhile (· ≠ '\n'))
    else c :: stripDigitTailsAux fuel t

def stripDigitTails (s : Str) : Str := stripDigitTailsAux s.length s

/-- The author-finding loop of `hasRecognizedWork` (lines 161-175): per
span length, an abbreviation entry whose value is a string wins, else a
canonical author name. -/
def findAuthorForWork (split : List Str) (authAbb : List (Str × AbbVal))
    (authors : List Str) : Option (Str × Nat) :=
  (List.range' 1 3).findSome? fun i =>
    if i ≤ split.length then
      let candidate := joinS [' '] (split.take i)
      match lookupS authAbb candidate with
      | some (.str s) => some (s, i)
      | _ => if authors.contains candidate then some (candidate, i) else none
    else none

/-- `resolver.hasRecognizedWork`. -/
def hasRecognizedWork (d : Store) (ref : Str) (authAbb : List (Str × AbbVal))
    (authors : List Str) : Bool :=
  let split := fieldsS ref
  if split.length < 2 then false
  else
    match findAuthorForWork split authAbb authors with
    | none => false
    | some (author, authLen) =>
      if author = [] || authLen ≥ split.length then false
      else
        match lookupS d.allWorkURNs author with
        | none => false
        | some authorWorks =>
          let workPart := trimS (stripDigitTails (joinS [' '] (split.drop authLen)))
          let workSplit := fieldsS workPart
          (List.range' 1 3).any fun i =>
            i ≤ workSplit.length &&
              (lookupS authorWorks (joinS [' '] (workSplit.take i))).isSome

/-- The ranked-pattern loop of GetRef (lines 92-108): for each pattern try
the attribute value then the inline text. -/
def tryPatterns (d : Store) (na bc : Str) : List RE → Option Str
  | [] => none
  | p :: ps =>
    if matchStringGo p na && hasRecognizedAuthor (fieldsS na) d.allAuthAbb d.allAuthors then
      some na
    else if matchStringGo p bc && hasRecognizedAuthor (fieldsS bc) d.allAuthAbb d.allAuthors then
      some bc
    else tryPatterns d na bc ps

/-- `resolver.GetRef` (the Reference Selector `select`). -/
def GetRef (d : Store) (nAttr0 biblContent0 : Str) : Str :=
  let nAttr := normalizeRef nAttr0
  let biblContent := normalizeRef biblContent0
  if biblContent = [] || trimS biblContent = [] then
    if nAttr ≠ [] then nAttr else []
  else if nAttr = [] || trimS nAttr = [] then biblContent
  else if (detectURN nAttr).isSome then nAttr
  else
    match tryPatterns d nAttr biblContent getRefPatterns with
    | some r => r
    | none =>
      if hasRecognizedAuthor (fieldsS nAttr) d.allAuthAbb d.allAuthors &&
          !hasRecognizedAuthor (fieldsS biblContent) d.allAuthAbb d.allAuthors then nAttr
      else if hasRecognizedAuthor (fieldsS biblContent) d.allAuthAbb d.allAuthors &&
          !hasRecognizedAuthor (fieldsS nAttr) d.allAuthAbb d.allAuthors then biblContent
      else if hasRecognizedAuthor (fieldsS nAttr) d.allAuthAbb d.allAuthors &&
          hasRecognizedAuthor (fieldsS biblContent) d.allAuthAbb d.allAuthors then
        if hasRecognizedWork d nAttr d.allAuthAbb d.allAuthors then nAttr
        else if hasRecognizedWork d biblContent d.allAuthAbb d.allAuthors then biblContent
        else []
      else []

/-! ## Definitions used by the claim statements -/

/-- Work-code resolution has passed tiers (i)/(ii) and reached the
numeric-synthesis / default fallback of getWorkURN: either the author has
no work table, or the (lowercased) work token has no exact entry and the
scan loop collected no match. -/
def reachesFallback (d : Store) (author w : Str) : Bool :=
  match lookupS d.allWorkURNs author with
  | none => true
  | some tbl =>
    (lookupS tbl w).isNone && (scanExact tbl w).isEmpty && (scanAbbrev tbl w).isEmpty

/-- The work token misses a candidate identity's work table entirely:
no exact entry and no generated-abbreviation hit. -/
def tableMisses (o : Option (List (Str × WorkURN))) (w : Str) : Bool :=
  match o with
  | none => true
  | some tbl => !(tableHasWork tbl w || tableHasAbbrevMatch tbl w)

abbrev NodupKeys (l : List (Str × α)) : Prop := (l.map Prod.fst).Nodup

/-- Two observations of the same Go work-table map: equal as maps
(one is a permutation of the other, keys unique), possibly iterated in a
different order. -/
def TableEquiv (o1 o2 : Option (List (Str × WorkURN))) : Prop :=
  match o1, o2 with
  | none, none => True
  | some t1, some t2 => t1.Perm t2 ∧ NodupKeys t1
  | _, _ => False

/-- Spec-side rendering of "zero-padded to at least 3 digits" (used only to
compare the claim's words with the code's output). -/
def specZeroPad3 (s : Str) : Str :=
  if 3 ≤ s.length then s else List.replicate (3 - s.length) '0' ++ s

/-- Spec-side rendering of "the tradition's first-work code": the
tradition's letter prefix (`tlg` for Greek, `phi` for Latin — the two
letter prefixes the spec names) followed by `001`.  Only the Greek and
Latin cases are exercised by the comparisons below. -/
def specFirstWorkCode (stem : Str) : Str :=
  if containsS stem "greekLit".data then "tlg001".data
  else if containsS stem "latinLit".data then "phi001".data
  else "tlg001".data

/-! Concrete stores used by counterexamples and witnesses. -/

def emptyStore : Store where
  allAuthAbb := []
  allAuthors := []
  allWorkURNs := []
  allAuthURNs := []
  singleWorkAuthors := []
  latinAuthAbb := []
  latinWorkURNs := []

/-- A one-author Greek store whose work table is listed in source order:
the work token "a" matches generated abbreviations of both titles. -/
def storeOrder1 : Store where
  allAuthAbb := []
  allAuthors := ["auth".data]
  allWorkURNs := [("auth".data,
    [("ab".data, .simple "A".data), ("ac".data, .simple "B".data)])]
  allAuthURNs := [("auth".data, "urn:cts:greekLit:tlg0001".data)]
  singleWorkAuthors := []
  latinAuthAbb := []
  latinWorkURNs := []

/-- The same map contents as `storeOrder1`, iterated in the other order. -/
def storeOrder2 : Store where
  allAuthAbb := []
  allAuthors := ["auth".data]
  allWorkURNs := [("auth".data,
    [("ac".data, .simple "B".data), ("ab".data, .simple "A".data)])]
  allAuthURNs := [("auth".data, "urn:cts:greekLit:tlg0001".data)]
  singleWorkAuthors := []
  latinAuthAbb := []
  latinWorkURNs := []

/-- An author of a non-Greek, non-Latin tradition (English stem), with an
identifier stem but no work table. -/
def storeEnglish : Store where
  allAuthAbb := []
  allAuthors := ["auth".data]
  allWorkURNs := []
  allAuthURNs := [("auth".data, "urn:cts:englishLit:abc".data)]
  singleWorkAuthors := []
  latinAuthAbb := []
  latinWorkURNs := []

/-- A Latin single-work author. -/
def storeLatinSingle : Store where
  allAuthAbb := []
  allAuthors := ["auth".data]
  allWorkURNs := []
  allAuthURNs := [("auth".data, "urn:cts:latinLit:phi0001".data)]
  singleWorkAuthors := ["auth".data]
  latinAuthAbb := []
  latinWorkURNs := []

/-- A store with a Range-valued work entry. -/
def storeRange : Store where
  allAuthAbb := []
  allAuthors := ["auth".data]
  allWorkURNs := [("auth".data, [("or. 15".data, .range "tlg".data 1 61)])]
  allAuthURNs := [("auth".data, "urn:cts:greekLit:tlg0001".data)]
  singleWorkAuthors := []
  latinAuthAbb := []
  latinWorkURNs := []

/-- A Latin store with the two Pliny identities and both disambiguation
markers. -/
def storePliny : Store where
  allAuthAbb := [("plin.".data, .str "_which_pliny".data)]
  allAuthors := []
  allWorkURNs := []
  allAuthURNs := []
  singleWorkAuthors := []
  latinAuthAbb := [("plin.".data, .str "_which_pliny".data),
                   ("sen.".data, .str "_which_seneca".data)]
  latinWorkURNs := [("pliny_senior".data,
                      [("naturalis historia".data, .simple "phi001".data)]),
                    ("pliny_junior".data,
                      [("epistulae".data, .simple "phi001".data)])]

/-! ## General lemmas about association-list lookup -/

lemma lookup_eq_some_mem {α : Type} {l : List (Str × α)} {k : Str} {v : α}
    (h : List.lookup k l = some v) : (k, v) ∈ l := by
  induction l with
  | nil => simp [List.lookup] at h
  | cons a t ih =>
    obtain ⟨k1, v1⟩ := a
    simp only [List.lookup] at h
    by_cases hk : k = k1
    · subst hk
      simp only [beq_self_eq_true] at h
      injection h with h
      subst h
      exact List.mem_cons_self _ _
    · rw [beq_eq_false_iff_ne.mpr hk] at h
      exact List.mem_cons_of_mem _ (ih h)

lemma lookup_mem_nodup {α : Type} {l : List (Str × α)} (hn : NodupKeys l) {k : Str} {v : α}
    (h : (k, v) ∈ l) : List.lookup k l = some v := by
  induction l with
  | nil => simp at h
  | cons a t ih =>
    obtain ⟨k1, v1⟩ := a
    simp only [NodupKeys, List.map_cons, List.nodup_cons] at hn
    rcases List.mem_cons.mp h with h1 | h1
    · injection h1 with h1 h2
      subst h1; subst h2
      simp [List.lookup]
    · have hk : k ≠ k1 := by
        rintro rfl
        exact hn.1 (List.mem_map.mpr ⟨(k, v), h1, rfl⟩)
      simp only [List.lookup, beq_eq_false_iff_ne.mpr hk]
      exact ih hn.2 h1

lemma lookup_cons_self {α : Type} (k : Str) (v : α) (t : List (Str × α)) :
    List.lookup k ((k, v) :: t) = some v := by
  simp [List.lookup]

lemma lookup_cons_ne {α : Type} {k k1 : Str} (hk : k ≠ k1) (v1 : α) (t : List (Str × α)) :
    List.lookup k ((k1, v1) :: t) = List.lookup k t := by
  simp [List.lookup, beq_eq_false_iff_ne.mpr hk]

lemma lookup_none_iff {α : Type} {l : List (Str × α)} {k : Str} :
    List.lookup k l = none ↔ k ∉ l.map Prod.fst := by
  induction l with
  | nil => simp [List.lookup]
  | cons a t ih =>
    obtain ⟨k1, v1⟩ := a
    by_cases hk : k = k1
    · subst hk
      rw [lookup_cons_self]
      simp only [List.map_cons, List.mem_cons]
      constructor
      · intro h; exact Option.noConfusion h
      · intro h; exact absurd (Or.inl trivial) h
    · rw [lookup_cons_ne hk]
      simp only [List.map_cons, List.mem_cons, ih]
      tauto

lemma nodupKeys_of_perm {α : Type} {l1 l2 : List (Str × α)} (hp : l1.Perm l2)
    (hn : NodupKeys l1) : NodupKeys l2 :=
  ((hp.map Prod.fst).nodup_iff).mp hn

lemma lookup_perm {α : Type} {l1 l2 : List (Str × α)} (hp : l1.Perm l2) (hn : NodupKeys l1)
    (k : Str) : List.lookup k l1 = List.lookup k l2 := by
  cases h : List.lookup k l1 with
  | some v =>
    exact (lookup_mem_nodup (nodupKeys_of_perm hp hn) (hp.mem_iff.mp (lookup_eq_some_mem h))).symm
  | none =>
    cases h2 : List.lookup k l2 with
    | none => rfl
    | some v =>
      exact absurd (hp.mem_iff.mpr (lookup_eq_some_mem h2))
        (fun hm => (lookup_none_iff.mp h) (List.mem_map.mpr ⟨(k, v), hm, rfl⟩))

lemma perm_eq_of_length_le_one {α : Type} {l1 l2 : List α} (hp : l1.Perm l2)
    (h : l1.length ≤ 1) : l1 = l2 := by
  cases l1 with
  | nil => exact hp.nil_eq
  | cons a t =>
    cases t with
    | nil => exact (List.perm_singleton.mp hp.symm).symm
    | cons b t2 => simp at h

/-! ## Claim C10 -/

lemma tryPatterns_eq_some {d : Store} {na bc r : Str} :
    ∀ ps : List RE, tryPatterns d na bc ps = some r → r = na ∨ r = bc := by
  intro ps
  induction ps with
  | nil => simp [tryPatterns]
  | cons p t ih =>
    intro h
    rw [tryPatterns] at h
    split at h
    · left; injection h with h; exact h.symm
    · split at h
      · right; injection h with h; exact h.symm
      · exact ih h

/-- Claim C10: for every pair of inputs, GetRef returns either the empty
string or exactly one of the two normalised candidates — the normalised
attribute value or the normalised inline text — never a combination or
further modification. -/
theorem getRef_returns_normalized_candidate_or_empty (d : Store) (na bc : Str) :
    GetRef d na bc = [] ∨ GetRef d na bc = normalizeRef na ∨
      GetRef d na bc = normalizeRef bc := by
  rw [GetRef]
  split
  · split
    · right; left; rfl
    · left; rfl
  · split
    · right; right; rfl
    · split
      · right; left; rfl
      · split
        · rename_i r heq
          rcases tryPatterns_eq_some _ heq with h | h
          · right; left; rw [h]
          · right; right; rw [h]
        · split
          · right; left; rfl
          · split
            · right; right; rfl
            · split
              · split
                · right; left; rfl
                · split
                  · right; right; rfl
                  · left; rfl
              · left; rfl

/-! ## Claim C3 -/

lemma mem_addAbbrev_self {acc : List Str} {a : Str} (ha : a ≠ []) : a ∈ addAbbrev acc a := by
  unfold addAbbrev
  by_cases hc : acc.contains a = true
  · rw [if_neg (by simp [List.elem_iff.mp hc])]
    exact List.elem_iff.mp hc
  · have hnm : a ∉ acc := fun hm => hc (List.elem_iff.mpr hm)
    rw [if_pos (by simp [ha, hnm])]
    exact List.mem_append_right _ (List.mem_singleton.mpr rfl)

lemma mem_addAbbrev_of_mem {acc : List Str} {a b : Str} (h : a ∈ acc) : a ∈ addAbbrev acc b := by
  unfold addAbbrev
  split
  · exact List.mem_append_left _ h
  · exact h

lemma mem_foldl_addAbbrev_of_mem_acc {a : Str} :
    ∀ (l : List Str) (acc : List Str), a ∈ acc → a ∈ l.foldl addAbbrev acc := by
  intro l
  induction l with
  | nil => intro acc h; exact h
  | cons b t ih => intro acc h; exact ih _ (mem_addAbbrev_of_mem h)

lemma mem_foldl_addAbbrev_of_mem {a : Str} (ha : a ≠ []) :
    ∀ (l : List Str) (acc : List Str), a ∈ l → a ∈ l.foldl addAbbrev acc := by
  intro l
  induction l with
  | nil => intro acc h; cases h
  | cons b t ih =>
    intro acc h
    rcases List.mem_cons.mp h with h1 | h1
    · subst h1
      exact mem_foldl_addAbbrev_of_mem_acc t _ (mem_addAbbrev_self ha)
    · exact ih _ h1

lemma no_empty_foldl_addAbbrev :
    ∀ (l : List Str) (acc : List Str), [] ∉ acc → [] ∉ l.foldl addAbbrev acc := by
  intro l
  induction l with
  | nil => intro acc h; exact h
  | cons b t ih =>
    intro acc h
    apply ih
    unfold addAbbrev
    split
    · rename_i hc
      simp only [Bool.and_eq_true, ne_eq, decide_eq_true_eq] at hc
      intro hmem
      rcases List.mem_append.mp hmem with h1 | h1
      · exact h h1
      · exact hc.1 (List.mem_singleton.mp h1).symm
    · exact h

lemma title_mem_abbrevCandidates (title : Str) : title ∈ abbrevCandidates title := by
  unfold abbrevCandidates
  simp

/-- Claim C3 counterexample: for the purely numeric title "123" the
generator returns the empty list, which does not contain the lowercased
title itself — refuting "for every title t, generate(t) contains the
lowercased t". -/
theorem c3_counterexample :
    GenerateWorkAbbreviations "123".data = [] ∧
      toLowerS "123".data ∉ GenerateWorkAbbreviations "123".data := by
  constructor
  · rfl
  · intro h
    simp only [show GenerateWorkAbbreviations "123".data = [] from rfl] at h
    cases h

/-- Claim C3 (amended): for every title that is not purely numeric and has
at least one word, the generated list contains the lowercased title itself
and never contains the empty string (purely numeric or blank titles
generate no abbreviations at all). -/
theorem generate_contains_title_no_empty (t : Str)
    (h1 : (toLowerS t).all Char.isDigit = false)
    (h2 : fieldsS (toLowerS t) ≠ []) :
    toLowerS t ∈ GenerateWorkAbbreviations t ∧ [] ∉ GenerateWorkAbbreviations t := by
  have hne : toLowerS t ≠ [] := by
    intro h
    exact h2 (by rw [h]; rfl)
  unfold GenerateWorkAbbreviations
  simp only [h1, Bool.and_false, if_neg (by simp : ¬ (false = true)), h2, if_neg h2]
  constructor
  · exact mem_foldl_addAbbrev_of_mem hne _ [] (title_mem_abbrevCandidates _)
  · exact no_empty_foldl_addAbbrev _ [] (by intro h; cases h)

/-- Witness for `generate_contains_title_no_empty` at the title "ab". -/
theorem generate_contains_title_no_empty_witness :
    ((toLowerS "ab".data).all Char.isDigit = false ∧ fieldsS (toLowerS "ab".data) ≠ []) ∧
      (toLowerS "ab".data ∈ GenerateWorkAbbreviations "ab".data ∧
        [] ∉ GenerateWorkAbbreviations "ab".data) :=
  ⟨⟨by decide, by decide⟩,
   generate_contains_title_no_empty "ab".data (by decide) (by decide)⟩

/-! ## Claim C9 -/

lemma lookup_append {α : Type} (t : Str) (m m2 : List (Str × α)) :
    List.lookup t (m ++ m2) =
      (match List.lookup t m with
       | some v => some v
       | none => List.lookup t m2) := by
  induction m with
  | nil => rfl
  | cons a r ih =>
    obtain ⟨k1, v1⟩ := a
    by_cases hk : t = k1
    · subst hk
      rw [List.cons_append, lookup_cons_self, lookup_cons_self]
    · rw [List.cons_append, lookup_cons_ne hk, lookup_cons_ne hk, ih]

lemma lookup_map_replace {k : Str} {v : WorkURN} :
    ∀ (m : List (Str × WorkURN)) {w : WorkURN}, List.lookup k m = some w →
      List.lookup k (m.map (fun kv => if kv.1 = k then (k, v) else kv)) = some v := by
  intro m
  induction m with
  | nil => intro w h; exact absurd h (by simp [List.lookup])
  | cons a r ih =>
    intro w h
    obtain ⟨k1, v1⟩ := a
    rw [List.map_cons]
    by_cases hk : k1 = k
    · subst hk
      rw [if_pos rfl]
      exact lookup_cons_self _ _ _
    · rw [if_neg hk, lookup_cons_ne (fun he => hk he.symm)]
      rw [lookup_cons_ne (fun he => hk he.symm)] at h
      exact ih h

lemma lookup_map_replace_ne {t k : Str} {v : WorkURN} (hne : t ≠ k) :
    ∀ m : List (Str × WorkURN),
      List.lookup t (m.map (fun kv => if kv.1 = k then (k, v) else kv)) = List.lookup t m := by
  intro m
  induction m with
  | nil => rfl
  | cons a r ih =>
    obtain ⟨k1, v1⟩ := a
    rw [List.map_cons]
    by_cases hk : k1 = k
    · subst hk
      rw [if_pos rfl, lookup_cons_ne hne, lookup_cons_ne hne]
      exact ih
    · rw [if_neg hk]
      by_cases ht : t = k1
      · subst ht
        rw [lookup_cons_self, lookup_cons_self]
      · rw [lookup_cons_ne ht, lookup_cons_ne ht]
        exact ih

lemma lookup_insertA_self {m : List (Str × WorkURN)} {k : Str} {v : WorkURN} :
    List.lookup k (insertA m k v) = some v := by
  unfold insertA
  split
  · rename_i hs
    simp only [lookupS] at hs
    obtain ⟨w, hw⟩ := Option.isSome_iff_exists.mp hs
    exact lookup_map_replace m hw
  · rename_i hs
    simp only [lookupS] at hs
    rw [lookup_append, Option.not_isSome_iff_eq_none.mp hs]
    exact lookup_cons_self _ _ _

lemma lookup_insertA_ne {m : List (Str × WorkURN)} {t k : Str} {v : WorkURN} (hne : t ≠ k) :
    List.lookup t (insertA m k v) = List.lookup t m := by
  unfold insertA
  split
  · exact lookup_map_replace_ne hne m
  · rw [lookup_append]
    cases h : List.lookup t m with
    | some v2 => rfl
    | none => exact lookup_cons_ne hne _ _

lemma lookup_insertIfAbsent_preserve {m : List (Str × WorkURN)} {t k : Str} {v u : WorkURN}
    (h : List.lookup t m = some u) : List.lookup t (insertIfAbsent m k v) = some u := by
  unfold insertIfAbsent
  split
  · exact h
  · rw [lookup_append, h]

lemma lookup_abbrevFold_preserve {t : Str} {u v : WorkURN} :
    ∀ (l : List Str) (acc : List (Str × WorkURN)), List.lookup t acc = some u →
      List.lookup t (l.foldl (fun a ab => insertIfAbsent a ab v) acc) = some u := by
  intro l
  induction l with
  | nil => intro acc h; exact h
  | cons b r ih => intro acc h; exact ih _ (lookup_insertIfAbsent_preserve h)

lemma lookup_expandStep_self {acc : List (Str × WorkURN)} {k : Str} {v : WorkURN} :
    List.lookup k (expandStep acc (k, v)) = some v := by
  unfold expandStep
  exact lookup_abbrevFold_preserve _ _ lookup_insertA_self

lemma lookup_expandStep_preserve {acc : List (Str × WorkURN)} {wu : Str × WorkURN} {t : Str}
    {u : WorkURN} (h : List.lookup t acc = some u) (hne : t ≠ wu.1) :
    List.lookup t (expandStep acc wu) = some u := by
  unfold expandStep
  exact lookup_abbrevFold_preserve _ _ ((lookup_insertA_ne hne).trans h)

lemma lookup_foldl_expandStep_preserve {t : Str} {u : WorkURN} :
    ∀ (l : List (Str × WorkURN)) (acc : List (Str × WorkURN)),
      List.lookup t acc = some u → t ∉ l.map Prod.fst →
      List.lookup t (l.foldl expandStep acc) = some u := by
  intro l
  induction l with
  | nil => intro acc h _; exact h
  | cons wu r ih =>
    intro acc h hni
    simp only [List.map_cons, List.mem_cons] at hni
    exact ih _ (lookup_expandStep_preserve h (fun he => hni (Or.inl he))) fun hm => hni (Or.inr hm)

lemma lookup_foldl_expandStep_mem {t : Str} {u : WorkURN} :
    ∀ (l : List (Str × WorkURN)) (acc : List (Str × WorkURN)), NodupKeys l → (t, u) ∈ l →
      List.lookup t (l.foldl expandStep acc) = some u := by
  intro l
  induction l with
  | nil => intro acc _ h; cases h
  | cons wu r ih =>
    intro acc hn h
    simp only [NodupKeys, List.map_cons, List.nodup_cons] at hn
    rcases List.mem_cons.mp h with h1 | h1
    · subst h1
      exact lookup_foldl_expandStep_preserve r _ lookup_expandStep_self hn.1
    · exact ih _ hn.2 h1

/-- Claim C9: after load-time expansion of a work table (the same pass is
applied to every author of every tradition), every literal work title
still maps to its original identifier: generated abbreviations are added
only when absent and never overwrite a literal entry. -/
theorem expand_preserves_literal_titles (works : List (Str × WorkURN)) (hn : NodupKeys works)
    (t : Str) (u : WorkURN) (hmem : (t, u) ∈ works) :
    List.lookup t (expandAuthorWorks works) = some u := by
  unfold expandAuthorWorks
  exact lookup_foldl_expandStep_mem works [] hn hmem

/-- Witness for `expand_preserves_literal_titles` on a one-entry table. -/
theorem expand_preserves_literal_titles_witness :
    (NodupKeys [("ab".data, WorkURN.simple "x".data)] ∧
      ("ab".data, WorkURN.simple "x".data) ∈ [("ab".data, WorkURN.simple "x".data)]) ∧
      List.lookup "ab".data (expandAuthorWorks [("ab".data, WorkURN.simple "x".data)]) =
        some (WorkURN.simple "x".data) :=
  ⟨⟨by decide, by decide⟩,
   expand_preserves_literal_titles _ (by decide) _ _ (by decide)⟩

/-! ## Claim C6 -/

lemma constructNumeric_eq {d : Store} {author stem : Str} (w : Str)
    (hstem : lookupS d.allAuthURNs author = some stem) :
    constructNumericWorkURN d author w =
      if containsS stem "greekLit".data then
        (if hasPrefixS w "0".data then "tlg".data ++ w else "tlg0".data ++ w)
      else if containsS stem "latinLit".data then
        (if hasPrefixS w "0".data then "phi".data ++ w else "phi0".data ++ w)
      else [] := by
  unfold constructNumericWorkURN
  rw [hstem]

lemma getWorkURN_fallback {d : Store} {author work : Str}
    (hreach : reachesFallback d author (toLowerS work) = true) :
    getWorkURN d author work =
      (if isNumericS (toLowerS work) then constructNumericWorkURN d author (toLowerS work)
       else "tlg001".data) := by
  unfold reachesFallback at hreach
  cases hw : lookupS d.allWorkURNs author with
  | none => simp only [getWorkURN, hw]
  | some tbl =>
    rw [hw] at hreach
    simp only [Bool.and_eq_true, Option.isNone_iff_eq_none, List.isEmpty_iff] at hreach
    simp only [getWorkURN, hw, hreach.1.1, hreach.1.2, hreach.2]

/-- Claim C6 counterexample: for the resolved author with Greek stem and
the 1-digit numeric token "5" (no WorkTable match), the synthesized code
is "tlg05" — only two digits, not the claimed zero padding "to at least 3
digits" ("tlg005"). -/
theorem c6_counterexample :
    getWorkURN storeOrder1 "auth".data "5".data = "tlg05".data ∧
      "tlg05".data ≠ "tlg".data ++ specZeroPad3 "5".data := by
  constructor
  · decide
  · decide

/-- Claim C6 (amended): for every resolved author whose identifier stem
marks the Greek (resp. Latin) tradition and every purely numeric work
token reaching the fallback with no WorkTable match, the synthesized work
code is "tlg" (resp. "phi") followed by the token with exactly one '0'
prepended unless the token already starts with '0'; no padding to a
minimum of 3 digits takes place (a 1-digit token yields a 2-digit
number). -/
theorem numeric_work_synthesis (d : Store) (author work stem : Str)
    (hstem : lookupS d.allAuthURNs author = some stem)
    (hreach : reachesFallback d author (toLowerS work) = true)
    (hnum : isNumericS (toLowerS work) = true) :
    (containsS stem "greekLit".data = true →
      getWorkURN d author work =
        "tlg".data ++ (if hasPrefixS (toLowerS work) "0".data then toLowerS work
          else '0' :: toLowerS work)) ∧
    (containsS stem "greekLit".data = false →
      containsS stem "latinLit".data = true →
      getWorkURN d author work =
        "phi".data ++ (if hasPrefixS (toLowerS work) "0".data then toLowerS work
          else '0' :: toLowerS work)) := by
  have hbody := getWorkURN_fallback hreach
  rw [hnum] at hbody
  simp only [if_pos rfl, if_true] at hbody
  rw [constructNumeric_eq (toLowerS work) hstem] at hbody
  constructor
  · intro hg
    rw [hbody, if_pos hg]
    split
    · rfl
    · rfl
  · intro hg hl
    rw [hbody, if_neg (by simp [hg]), if_pos hl]
    split
    · rfl
    · rfl

/-- Witness for `numeric_work_synthesis` at the token "19" (Greek stem). -/
theorem numeric_work_synthesis_witness :
    (lookupS storeOrder1.allAuthURNs "auth".data = some "urn:cts:greekLit:tlg0001".data ∧
      reachesFallback storeOrder1 "auth".data (toLowerS "19".data) = true ∧
      isNumericS (toLowerS "19".data) = true) ∧
    (containsS "urn:cts:greekLit:tlg0001".data "greekLit".data = true →
      getWorkURN storeOrder1 "auth".data "19".data =
        "tlg".data ++ (if hasPrefixS (toLowerS "19".data) "0".data then toLowerS "19".data
          else '0' :: toLowerS "19".data)) :=
  ⟨⟨by decide, by decide, by decide⟩,
   (numeric_work_synthesis storeOrder1 "auth".data "19".data "urn:cts:greekLit:tlg0001".data
      (by decide) (by decide) (by decide)).1⟩

/-! ## Claim C2 -/

/-- Claim C2 counterexample: the author resolves and possesses an
identifier stem (English tradition), the work token "19" is numeric with
no WorkTable entry, yet resolve_identifier fails — tier (iii) returns the
empty string for a stem that is neither Greek nor Latin, so failure is
possible with a stem present. -/
theorem c2_counterexample :
    lookupS storeEnglish.allAuthURNs "auth".data = some "urn:cts:englishLit:abc".data ∧
      resolveAuthor storeEnglish "auth".data "19".data = "auth".data ∧
      GetURN storeEnglish "auth 19.3".data = [] := by
  refine ⟨by decide, by decide, by decide⟩

/-- Claim C2 (amended): once work-code resolution reaches the fallback
tiers (iii)/(iv), the work code is non-empty whenever the author's
identifier stem marks the Greek or Latin tradition; for other traditions
tier (iii) returns an empty code on a numeric token, so resolve_identifier
can fail even though the author has an identifier stem. -/
theorem work_fallback_nonempty (d : Store) (author work stem : Str)
    (hstem : lookupS d.allAuthURNs author = some stem)
    (hmk : containsS stem "greekLit".data = true ∨ containsS stem "latinLit".data = true)
    (hreach : reachesFallback d author (toLowerS work) = true) :
    getWorkURN d author work ≠ [] := by
  rw [getWorkURN_fallback hreach]
  split
  · rw [constructNumeric_eq (toLowerS work) hstem]
    rcases hmk with h | h
    · rw [if_pos h]
      split <;>
        (intro hcon; rw [List.append_eq_nil] at hcon; exact absurd hcon.1 (by decide))
    · by_cases hg : containsS stem "greekLit".data = true
      · rw [if_pos hg]
        split <;>
          (intro hcon; rw [List.append_eq_nil] at hcon; exact absurd hcon.1 (by decide))
      · rw [if_neg hg, if_pos h]
        split <;>
          (intro hcon; rw [List.append_eq_nil] at hcon; exact absurd hcon.1 (by decide))
  · decide

/-- Witness for `work_fallback_nonempty` at the Greek-tradition store
`storeOrder1` with the numeric token "7". -/
theorem work_fallback_nonempty_witness :
    (lookupS storeOrder1.allAuthURNs "auth".data = some "urn:cts:greekLit:tlg0001".data ∧
      (containsS "urn:cts:greekLit:tlg0001".data "greekLit".data = true ∨
        containsS "urn:cts:greekLit:tlg0001".data "latinLit".data = true) ∧
      reachesFallback storeOrder1 "auth".data (toLowerS "7".data) = true) ∧
    getWorkURN storeOrder1 "auth".data "7".data ≠ [] :=
  ⟨⟨by decide, Or.inl (by decide), by decide⟩,
   work_fallback_nonempty storeOrder1 "auth".data "7".data "urn:cts:greekLit:tlg0001".data
     (by decide) (Or.inl (by decide)) (by decide)⟩

/-! ## Claim C5 -/

lemma tlg001_prefix_loc (stem s l : Str) :
    (stem ++ ".tlg001.".data) <+: ((stem ++ '.' :: "tlg001".data) ++ '.' :: s) ++ l :=
  ⟨s ++ l, by simp [List.append_assoc]⟩

lemma tlg001_prefix_noloc (stem s : Str) :
    (stem ++ ".tlg001.".data) <+: (stem ++ '.' :: "tlg001".data) ++ '.' :: s :=
  ⟨s, by simp [List.append_assoc]⟩

/-- Claim C5 counterexample: for a Latin single-work author
resolve_identifier's default work code is the literal "tlg001", not the
Latin tradition's first-work code "phi001". -/
theorem c5_counterexample :
    GetURN storeLatinSingle "auth 3".data =
        "urn:cts:latinLit:phi0001.tlg001.perseus-lat2:3".data ∧
      containsS "urn:cts:latinLit:phi0001".data "latinLit".data = true ∧
      specFirstWorkCode "urn:cts:latinLit:phi0001".data = "phi001".data ∧
      GetURN storeLatinSingle "auth 3".data ≠
        "urn:cts:latinLit:phi0001.".data ++
          specFirstWorkCode "urn:cts:latinLit:phi0001".data ++ ".perseus-lat2:3".data := by
  refine ⟨by decide, by decide, by decide, by decide⟩

/-- Claim C5 (amended): whenever resolve_identifier uses a default work
code — on the single-work-author path or at the tier-(iv) final fallback —
that code is the literal "tlg001" regardless of the resolved author's
tradition; it coincides with the tradition's first-work code only for
Greek-tradition stems. -/
theorem default_work_code_is_tlg001 :
    (∀ (d : Store) (author passage ref stem : Str),
      lookupS d.allAuthURNs author = some stem →
      (stem ++ ".tlg001.".data) <+: handleSingleWorkAuthor d author passage ref) ∧
    (∀ (d : Store) (author work : Str),
      reachesFallback d author (toLowerS work) = true →
      isNumericS (toLowerS work) = false →
      getWorkURN d author work = "tlg001".data) := by
  constructor
  · intro d author passage ref stem hstem
    simp only [handleSingleWorkAuthor, hstem]
    split
    · exact tlg001_prefix_loc stem _ _
    · exact tlg001_prefix_noloc stem _
  · intro d author work hreach hnum
    rw [getWorkURN_fallback hreach, if_neg (by simp [hnum])]

/-- Witness for `default_work_code_is_tlg001`: the Latin single-work
author of `storeLatinSingle` and the fallback at `storeOrder1`. -/
theorem default_work_code_is_tlg001_witness :
    (lookupS storeLatinSingle.allAuthURNs "auth".data =
        some "urn:cts:latinLit:phi0001".data ∧
      ("urn:cts:latinLit:phi0001".data ++ ".tlg001.".data) <+:
        handleSingleWorkAuthor storeLatinSingle "auth".data "3".data "auth 3".data) ∧
    (reachesFallback storeOrder1 "auth".data (toLowerS "zz".data) = true ∧
      isNumericS (toLowerS "zz".data) = false ∧
      getWorkURN storeOrder1 "auth".data "zz".data = "tlg001".data) :=
  ⟨⟨by decide,
    default_work_code_is_tlg001.1 storeLatinSingle "auth".data "3".data "auth 3".data
      "urn:cts:latinLit:phi0001".data (by decide)⟩,
   ⟨by decide, by decide,
    default_work_code_is_tlg001.2 storeOrder1 "auth".data "zz".data (by decide) (by decide)⟩⟩

/-! ## Claim C8 -/

/-- Claim C8: when the exact lowercase WorkTable match is a
`Range(prefix, start, end)`: if the first number `n` in the token is in
bounds the work code is `prefix` followed by `n` zero-padded to 3 digits;
if the token has no number, or `n` is out of bounds, work-code resolution
fails (empty result). -/
theorem range_work_resolution (d : Store) (author work : Str)
    (tbl : List (Str × WorkURN)) (pfx : Str) (st en : Int)
    (ht : lookupS d.allWorkURNs author = some tbl)
    (hr : lookupS tbl (toLowerS work) = some (.range pfx st en)) :
    (∀ n : Nat, firstNumberS (toLowerS work) = some n →
      ((st ≤ (n : Int) ∧ (n : Int) ≤ en → getWorkURN d author work = pfx ++ pad3 n) ∧
       (¬(st ≤ (n : Int) ∧ (n : Int) ≤ en) → getWorkURN d author work = []))) ∧
    (firstNumberS (toLowerS work) = none → getWorkURN d author work = []) := by
  have hbody : getWorkURN d author work = handleWorkRange (toLowerS work) pfx st en := by
    simp only [getWorkURN, ht, hr]
  constructor
  · intro n hn
    constructor
    · intro hb
      rw [hbody]
      unfold handleWorkRange
      rw [hn]
      exact if_pos hb
    · intro hb
      rw [hbody]
      unfold handleWorkRange
      rw [hn]
      exact if_neg hb
  · intro hn
    rw [hbody]
    unfold handleWorkRange
    rw [hn]

/-- Witness for `range_work_resolution`: the spec's own scenario
(prefix "tlg", range 1..61, token "or. 15" → "tlg015"). -/
theorem range_work_resolution_witness :
    (lookupS storeRange.allWorkURNs "auth".data =
        some [("or. 15".data, WorkURN.range "tlg".data 1 61)] ∧
      lookupS [("or. 15".data, WorkURN.range "tlg".data 1 61)] (toLowerS "or. 15".data) =
        some (WorkURN.range "tlg".data 1 61) ∧
      firstNumberS (toLowerS "or. 15".data) = some 15 ∧
      (1 : Int) ≤ (15 : Nat) ∧ ((15 : Nat) : Int) ≤ 61) ∧
    getWorkURN storeRange "auth".data "or. 15".data = "tlg".data ++ pad3 15 :=
  ⟨⟨by decide, by decide, by decide, by decide, by decide⟩,
   ((range_work_resolution storeRange "auth".data "or. 15".data
      [("or. 15".data, WorkURN.range "tlg".data 1 61)] "tlg".data 1 61
      (by decide) (by decide)).1 15 (by decide)).1 (by decide)⟩

/-! ## Claim C1 -/

lemma scanExact_eq_nil {tbl : List (Str × WorkURN)} {w : Str}
    (h : List.lookup w tbl = none) : scanExact tbl w = [] := by
  rw [lookup_none_iff] at h
  unfold scanExact
  induction tbl with
  | nil => rfl
  | cons kv t ih =>
    simp only [List.map_cons, List.mem_cons] at h
    rw [List.filterMap_cons, if_neg (fun he : kv.1 = w => h (Or.inl he.symm))]
    exact ih fun hm => h (Or.inr hm)

lemma constructNumeric_congr {d1 d2 : Store} {author w : Str}
    (hurns : d1.allAuthURNs = d2.allAuthURNs) :
    constructNumericWorkURN d1 author w = constructNumericWorkURN d2 author w := by
  unfold constructNumericWorkURN
  rw [hurns]

/-- Claim C1 counterexample: two observations of the same loaded store —
the author's WorkTable holds the same key/value set, listed in the two
possible Go map iteration orders — give different resolve_identifier
outputs for the same reference "auth a", whose work token matches
generated abbreviations of both titles.  Identical inputs and an identical
map thus do not determine the output. -/
theorem c1_counterexample :
    ([("ab".data, WorkURN.simple "A".data), ("ac".data, WorkURN.simple "B".data)] :
        List (Str × WorkURN)).Perm
      [("ac".data, WorkURN.simple "B".data), ("ab".data, WorkURN.simple "A".data)] ∧
    storeOrder1.allWorkURNs = [("auth".data,
      [("ab".data, WorkURN.simple "A".data), ("ac".data, WorkURN.simple "B".data)])] ∧
    storeOrder2.allWorkURNs = [("auth".data,
      [("ac".data, WorkURN.simple "B".data), ("ab".data, WorkURN.simple "A".data)])] ∧
    storeOrder1.allAuthAbb = storeOrder2.allAuthAbb ∧
    storeOrder1.allAuthors = storeOrder2.allAuthors ∧
    storeOrder1.allAuthURNs = storeOrder2.allAuthURNs ∧
    storeOrder1.singleWorkAuthors = storeOrder2.singleWorkAuthors ∧
    GetURN storeOrder1 "auth a".data ≠ GetURN storeOrder2 "auth a".data := by
  refine ⟨by decide, by decide, by decide, rfl, rfl, rfl, rfl, by decide⟩

/-- Claim C1 (amended): resolve_identifier is a pure function of its
inputs and the store together with its table iteration order; the
work-code resolution step is invariant under reordering of the author's
WorkTable provided the work token matches the generated abbreviations of
at most one work title — with more than one equally-ranked abbreviation
match, the result depends on the iteration order (the nondeterminism the
source notes). -/
theorem getWorkURN_order_invariant (d1 d2 : Store) (author work : Str)
    (hurns : d1.allAuthURNs = d2.allAuthURNs)
    (ht : TableEquiv (lookupS d1.allWorkURNs author) (lookupS d2.allWorkURNs author))
    (huniq : ∀ tbl, lookupS d1.allWorkURNs author = some tbl →
      (scanAbbrev tbl (toLowerS work)).length ≤ 1) :
    getWorkURN d1 author work = getWorkURN d2 author work := by
  cases h1 : lookupS d1.allWorkURNs author with
  | none =>
    cases h2 : lookupS d2.allWorkURNs author with
    | none =>
      simp only [getWorkURN, h1, h2]
      rw [constructNumeric_congr hurns]
    | some t2 =>
      rw [h1, h2] at ht
      simp only [TableEquiv] at ht
  | some t1 =>
    cases h2 : lookupS d2.allWorkURNs author with
    | none =>
      rw [h1, h2] at ht
      simp only [TableEquiv] at ht
    | some t2 =>
      rw [h1, h2] at ht
      simp only [TableEquiv] at ht
      obtain ⟨hperm, hnodup⟩ := ht
      have hlk : lookupS t1 (toLowerS work) = lookupS t2 (toLowerS work) :=
        lookup_perm hperm hnodup _
      simp only [getWorkURN, h1, h2, ← hlk]
      cases hcase : lookupS t1 (toLowerS work) with
      | some u =>
        cases u with
        | simple s => rfl
        | range pfx st en => rfl
      | none =>
        have he1 : scanExact t1 (toLowerS work) = [] := scanExact_eq_nil hcase
        have he2 : scanExact t2 (toLowerS work) = [] := by
          apply scanExact_eq_nil
          rw [show List.lookup (toLowerS work) t2 = lookupS t2 (toLowerS work) from rfl, ← hlk]
          exact hcase
        have hab : scanAbbrev t1 (toLowerS work) = scanAbbrev t2 (toLowerS work) :=
          perm_eq_of_length_le_one (hperm.filterMap _) (huniq t1 h1)
        rw [he1, he2, ← hab]
        cases scanAbbrev t1 (toLowerS work) with
        | nil => rw [constructNumeric_congr hurns]
        | cons m t => rfl

/-- Witness for `getWorkURN_order_invariant`: the stores of the
counterexample with the work token "ab", which matches only the literal
title "ab". -/
theorem getWorkURN_order_invariant_witness :
    (storeOrder1.allAuthURNs = storeOrder2.allAuthURNs ∧
      TableEquiv (lookupS storeOrder1.allWorkURNs "auth".data)
        (lookupS storeOrder2.allWorkURNs "auth".data) ∧
      (∀ tbl, lookupS storeOrder1.allWorkURNs "auth".data = some tbl →
        (scanAbbrev tbl (toLowerS "ab".data)).length ≤ 1)) ∧
    getWorkURN storeOrder1 "auth".data "ab".data =
      getWorkURN storeOrder2 "auth".data "ab".data :=
  ⟨⟨rfl, ⟨by decide, by decide⟩,
    fun tbl h => by
      rw [show lookupS storeOrder1.allWorkURNs "auth".data =
        some [("ab".data, WorkURN.simple "A".data), ("ac".data, WorkURN.simple "B".data)]
        from by decide] at h
      injection h with h
      subst h
      decide⟩,
   getWorkURN_order_invariant storeOrder1 storeOrder2 "auth".data "ab".data rfl
     ⟨by decide, by decide⟩
     (fun tbl h => by
       rw [show lookupS storeOrder1.allWorkURNs "auth".data =
         some [("ab".data, WorkURN.simple "A".data), ("ac".data, WorkURN.simple "B".data)]
         from by decide] at h
       injection h with h
       subst h
       decide)⟩

/-! ## Claim C7 -/

lemma identityHit_congr {d1 d2 : Store} {key w : Str}
    (h : TableEquiv (lookupS d1.latinWorkURNs key) (lookupS d2.latinWorkURNs key)) :
    identityHit d1 key w = identityHit d2 key w := by
  unfold identityHit
  cases h1 : lookupS d1.latinWorkURNs key with
  | none =>
    cases h2 : lookupS d2.latinWorkURNs key with
    | none => rfl
    | some t2 =>
      rw [h1, h2] at h
      simp only [TableEquiv] at h
  | some t1 =>
    cases h2 : lookupS d2.latinWorkURNs key with
    | none =>
      rw [h1, h2] at h
      simp only [TableEquiv] at h
    | some t2 =>
      rw [h1, h2] at h
      simp only [TableEquiv] at h
      obtain ⟨hperm, hnodup⟩ := h
      show (tableHasWork t1 w || tableHasAbbrevMatch t1 w) =
        (tableHasWork t2 w || tableHasAbbrevMatch t2 w)
      unfold tableHasWork tableHasAbbrevMatch
      rw [show lookupS t1 w = lookupS t2 w from lookup_perm hperm hnodup w]
      have hany : t1.any (fun tw => (GenerateWorkAbbreviations tw.1).contains w) =
          t2.any (fun tw => (GenerateWorkAbbreviations tw.1).contains w) := by
        apply Bool.eq_iff_iff.mpr
        simp only [List.any_eq_true]
        exact ⟨fun ⟨x, hx, hp⟩ => ⟨x, hperm.mem_iff.mp hx, hp⟩,
               fun ⟨x, hx, hp⟩ => ⟨x, hperm.mem_iff.mpr hx, hp⟩⟩
      rw [hany]

lemma identityHit_false_of_misses {d : Store} {key w : Str}
    (h : tableMisses (lookupS d.latinWorkURNs key) w = true) :
    identityHit d key w = false := by
  unfold tableMisses at h
  unfold identityHit
  cases hk : lookupS d.latinWorkURNs key with
  | none => rfl
  | some tbl =>
    rw [hk] at h
    simp only [Bool.not_eq_true'] at h
    exact h

/-- Claim C7: the Author Disambiguator is deterministic — two observations
of the same Latin reference data (identical abbreviation lookups, each
candidate identity's work table equal as a map though possibly reordered)
give the same canonical key for every (abbreviation, work) pair; and for a
disambiguation-marker abbreviation whose work token matches neither
candidate identity's table (in particular an empty or unrecognized work),
the documented default identity is returned: `pliny_senior` for "plin.",
`seneca_junior` for "sen." — the senior/junior candidates being consulted
in the fixed priority order of the code. -/
theorem latin_disambiguation_deterministic (d1 d2 : Store) (abb work : Str)
    (habb : ∀ k, lookupS d1.latinAuthAbb k = lookupS d2.latinAuthAbb k)
    (hps : TableEquiv (lookupS d1.latinWorkURNs "pliny_senior".data)
      (lookupS d2.latinWorkURNs "pliny_senior".data))
    (hpj : TableEquiv (lookupS d1.latinWorkURNs "pliny_junior".data)
      (lookupS d2.latinWorkURNs "pliny_junior".data))
    (hss : TableEquiv (lookupS d1.latinWorkURNs "seneca_senior".data)
      (lookupS d2.latinWorkURNs "seneca_senior".data))
    (hsj : TableEquiv (lookupS d1.latinWorkURNs "seneca_junior".data)
      (lookupS d2.latinWorkURNs "seneca_junior".data)) :
    ResolveLatinAuthorFunction d1 abb work = ResolveLatinAuthorFunction d2 abb work ∧
    (lookupS d1.latinAuthAbb "plin.".data = some (.str "_which_pliny".data) →
      tableMisses (lookupS d1.latinWorkURNs "pliny_senior".data) (toLowerS work) = true →
      tableMisses (lookupS d1.latinWorkURNs "pliny_junior".data) (toLowerS work) = true →
      ResolveLatinAuthorFunction d1 "plin.".data work = "pliny_senior".data) ∧
    (lookupS d1.latinAuthAbb "sen.".data = some (.str "_which_seneca".data) →
      tableMisses (lookupS d1.latinWorkURNs "seneca_senior".data) (toLowerS work) = true →
      tableMisses (lookupS d1.latinWorkURNs "seneca_junior".data) (toLowerS work) = true →
      ResolveLatinAuthorFunction d1 "sen.".data work = "seneca_junior".data) := by
  refine ⟨?_, ?_, ?_⟩
  · simp only [ResolveLatinAuthorFunction, habb abb]
    rw [identityHit_congr hps, identityHit_congr hpj, identityHit_congr hss,
      identityHit_congr hsj]
  · intro hm hs hj
    simp only [ResolveLatinAuthorFunction, hm]
    rw [identityHit_false_of_misses hs, identityHit_false_of_misses hj]
    simp
  · intro hm hs hj
    simp only [ResolveLatinAuthorFunction, hm]
    rw [identityHit_false_of_misses hs, identityHit_false_of_misses hj]
    simp

/-- Witness for `latin_disambiguation_deterministic` on the concrete
Latin store: unmatched work "zzz" resolves "plin." to pliny_senior and
"sen." to seneca_junior. -/
theorem latin_disambiguation_deterministic_witness :
    ResolveLatinAuthorFunction storePliny "plin.".data "zzz".data =
        ResolveLatinAuthorFunction storePliny "plin.".data "zzz".data ∧
      ResolveLatinAuthorFunction storePliny "plin.".data "zzz".data = "pliny_senior".data ∧
      ResolveLatinAuthorFunction storePliny "sen.".data "zzz".data = "seneca_junior".data :=
  ⟨(latin_disambiguation_deterministic storePliny storePliny "plin.".data "zzz".data
      (fun _ => rfl) ⟨List.Perm.refl _, by decide⟩ ⟨List.Perm.refl _, by decide⟩
      trivial trivial).1,
   (latin_disambiguation_deterministic storePliny storePliny "plin.".data "zzz".data
      (fun _ => rfl) ⟨List.Perm.refl _, by decide⟩ ⟨List.Perm.refl _, by decide⟩
      trivial trivial).2.1 (by decide) (by decide) (by decide),
   (latin_disambiguation_deterministic storePliny storePliny "sen.".data "zzz".data
      (fun _ => rfl) ⟨List.Perm.refl _, by decide⟩ ⟨List.Perm.refl _, by decide⟩
      trivial trivial).2.2 (by decide) (by decide) (by decide)⟩

/-! ## Claim C4 -/

lemma digit_ne {c d : Char} (h : c.isDigit = true) (hd : d.isDigit = false) : c ≠ d := by
  intro he
  subst he
  rw [h] at hd
  exact Bool.noConfusion hd

lemma isPrefixOf_append_self : ∀ (p t : Str), p.isPrefixOf (p ++ t) = true := by
  intro p t
  induction p with
  | nil => simp [List.isPrefixOf]
  | cons c r ih => simp [List.isPrefixOf, ih]

lemma isPrefixOf_exists {p : Str} : ∀ {s : Str}, p.isPrefixOf s = true → ∃ t, s = p ++ t := by
  induction p with
  | nil => intro s _; exact ⟨s, rfl⟩
  | cons c r ih =>
    intro s h
    cases s with
    | nil => exact absurd h (by simp [List.isPrefixOf])
    | cons d t =>
      simp only [List.isPrefixOf, Bool.and_eq_true, beq_iff_eq] at h
      obtain ⟨t2, ht2⟩ := ih h.2
      exact ⟨t2, by rw [h.1, List.cons_append, ← ht2]⟩

lemma containsS_of_prefix {s p : Str} (h : p.isPrefixOf s = true) (hs : s ≠ []) :
    containsS s p = true := by
  cases s with
  | nil => exact absurd rfl hs
  | cons c t =>
    unfold containsS
    rw [if_pos h]

lemma mem_of_containsS {p : Str} {c : Char} (hc : c ∈ p) :
    ∀ {s : Str}, containsS s p = true → c ∈ s := by
  intro s
  induction s with
  | nil =>
    intro h
    unfold containsS at h
    obtain ⟨t, ht⟩ := isPrefixOf_exists h
    cases p with
    | nil => cases hc
    | cons a r => exact absurd ht (by simp)
  | cons d t ih =>
    intro h
    unfold containsS at h
    by_cases hp : p.isPrefixOf (d :: t) = true
    · obtain ⟨r, hr⟩ := isPrefixOf_exists hp
      rw [hr]
      exact List.mem_append_left _ hc
    · rw [if_neg hp] at h
      exact List.mem_cons_of_mem _ (ih h)

lemma not_containsS_of_char {s p : Str} {c : Char} (hc : c ∈ p) (hns : c ∉ s) :
    containsS s p = false := by
  cases h : containsS s p with
  | false => rfl
  | true => exact absurd (mem_of_containsS hc h) hns

lemma takeWhile_digits_concat {a : Str} (had : a.all Char.isDigit = true) {c : Char}
    (hc : c.isDigit = false) (r : Str) :
    (a ++ c :: r).takeWhile Char.isDigit = a := by
  induction a with
  | nil => simp [List.takeWhile_cons, hc]
  | cons d t ih =>
    simp only [List.all_cons, Bool.and_eq_true] at had
    rw [List.cons_append, List.takeWhile_cons, if_pos had.1, ih had.2]

lemma dropWhile_digits_concat {a : Str} (had : a.all Char.isDigit = true) {c : Char}
    (hc : c.isDigit = false) (r : Str) :
    (a ++ c :: r).dropWhile Char.isDigit = c :: r := by
  induction a with
  | nil => simp [List.dropWhile_cons, hc]
  | cons d t ih =>
    simp only [List.all_cons, Bool.and_eq_true] at had
    rw [List.cons_append, List.dropWhile_cons, if_pos had.1, ih had.2]

lemma spanDigits_concat {a : Str} (had : a.all Char.isDigit = true) {c : Char}
    (hc : c.isDigit = false) (r : Str) :
    spanDigits (a ++ c :: r) = (a, c :: r) := by
  unfold spanDigits
  rw [takeWhile_digits_concat had hc, dropWhile_digits_concat had hc]

lemma spanDigits_all {l : Str} (hld : l.all Char.isDigit = true) :
    spanDigits l = (l, []) := by
  unfold spanDigits
  rw [List.takeWhile_eq_self_iff.mpr (List.all_eq_true.mp hld),
    List.dropWhile_eq_nil_iff.mpr (List.all_eq_true.mp hld)]

lemma matchLocGroup_non_colon {c : Char} (hc : c ≠ ':') (rest : Str) :
    matchLocGroup (c :: rest) = ([], c :: rest) := by
  unfold matchLocGroup
  split
  · rename_i s1 heq
    injection heq with h1 h2
    exact absurd h1 hc
  · rfl

lemma matchLocGroup_colon_digits {l : Str} (hl : l ≠ []) (hld : l.all Char.isDigit = true) :
    matchLocGroup (':' :: l) = (':' :: l, []) := by
  unfold matchLocGroup
  split
  · rename_i s1 heq
    injection heq with h1 h2
    subst h2
    rw [List.takeWhile_eq_self_iff.mpr (List.all_eq_true.mp hld),
      List.dropWhile_eq_nil_iff.mpr (List.all_eq_true.mp hld)]
    rw [if_neg hl]
  · rename_i hne
    exact absurd rfl (hne l)

lemma matchFF_non_f {c : Char} (hc : c ≠ 'f') (rest : Str) :
    matchFF (c :: rest) = ([], c :: rest) := by
  unfold matchFF
  split
  · rename_i r heq
    injection heq with h1 h2
    exact absurd h1 hc
  · rfl

/-- A well-formed embedded code followed by a separator that opens neither
the colon group nor the `ff` group: the match stops right after the second
digit run. -/
lemma matchURNAt_sep (pfx a b : Str) (c : Char) (rest : Str)
    (ha : a ≠ []) (had : a.all Char.isDigit = true)
    (hb : b ≠ []) (hbd : b.all Char.isDigit = true)
    (hcd : c.isDigit = false) (hcc : c ≠ ':') (hcf : c ≠ 'f') :
    matchURNAt pfx (pfx ++ (a ++ '.' :: (pfx ++ (b ++ c :: rest)))) =
      some (pfx ++ a ++ '.' :: pfx ++ b ++ [] ++ [], c :: rest) := by
  unfold matchURNAt
  rw [if_pos (isPrefixOf_append_self _ _), List.drop_left]
  simp only [spanDigits_concat had (show ('.' : Char).isDigit = false by decide), if_neg ha]
  simp only [isPrefixOf_append_self, if_true, List.drop_left]
  simp only [spanDigits_concat hbd hcd, if_neg hb]
  simp only [matchLocGroup_non_colon hcc, matchFF_non_f hcf]

/-- A well-formed embedded code followed by a colon and a digit locant at
the end of the string: the colon group swallows the locant. -/
lemma matchURNAt_colon (pfx a b l : Str)
    (ha : a ≠ []) (had : a.all Char.isDigit = true)
    (hb : b ≠ []) (hbd : b.all Char.isDigit = true)
    (hl : l ≠ []) (hld : l.all Char.isDigit = true) :
    matchURNAt pfx (pfx ++ (a ++ '.' :: (pfx ++ (b ++ ':' :: l)))) =
      some (pfx ++ a ++ '.' :: pfx ++ b ++ (':' :: l) ++ [], []) := by
  unfold matchURNAt
  rw [if_pos (isPrefixOf_append_self _ _), List.drop_left]
  simp only [spanDigits_concat had (show ('.' : Char).isDigit = false by decide), if_neg ha]
  simp only [isPrefixOf_append_self, if_true, List.drop_left]
  simp only [spanDigits_concat hbd (show (':' : Char).isDigit = false by decide), if_neg hb]
  simp only [matchLocGroup_colon_digits hl hld]
  rfl

lemma findPat_head {pfx m r : Str} : ∀ {s : Str}, matchURNAt pfx s = some (m, r) → s ≠ [] →
    findPat pfx s = some m := by
  intro s h hs
  cases s with
  | nil => exact absurd rfl hs
  | cons c t =>
    unfold findPat
    rw [h]

lemma findPat_none (c0 : Char) (p' : Str) :
    ∀ s : Str, (∀ c ∈ s, c ≠ c0) → findPat (c0 :: p') s = none := by
  intro s
  induction s with
  | nil => intro _; rfl
  | cons c t ih =>
    intro h
    unfold findPat
    have hne : (c0 :: p').isPrefixOf (c :: t) = false := by
      simp only [List.isPrefixOf, Bool.and_eq_false_iff]
      left
      exact beq_eq_false_iff_ne.mpr fun he => h c (List.mem_cons_self _ _) he.symm
    unfold matchURNAt
    rw [if_neg (by simp [hne])]
    exact ih fun x hx => h x (List.mem_cons_of_mem _ hx)

lemma afterFirst_prefix {sub : Str} (t : Str) (hsub : sub ≠ []) :
    afterFirstOccurrence sub (sub ++ t) = t := by
  cases sub with
  | nil => exact absurd rfl hsub
  | cons c r =>
    rw [List.cons_append]
    unfold afterFirstOccurrence
    rw [if_pos (by rw [← List.cons_append]; exact isPrefixOf_append_self _ _)]
    rw [← List.cons_append, List.drop_left]

/-- A reference ending in a digit has neither an "ff" nor an "ff." suffix,
so the ff-normalisation leaves it unchanged. -/
lemma ffStep_digit_last {s l : Str} (hl : l ≠ []) (hld : l.all Char.isDigit = true) :
    ffStep (s ++ l) = s ++ l := by
  obtain ⟨c, r, hrev, hc⟩ : ∃ c r, l.reverse = c :: r ∧ c.isDigit = true := by
    cases hcase : l.reverse with
    | nil => exact absurd (List.reverse_eq_nil_iff.mp hcase) hl
    | cons c r =>
      refine ⟨c, r, rfl, ?_⟩
      have hm : c ∈ l := List.mem_reverse.mp (hcase ▸ List.mem_cons_self c r)
      exact List.all_eq_true.mp hld c hm
  have hrev2 : (s ++ l).reverse = c :: (r ++ s.reverse) := by
    rw [List.reverse_append, hrev, List.cons_append]
  have hff : hasSuffixS (s ++ l) "ff".data = false := by
    unfold hasSuffixS
    rw [hrev2, show "ff".data.reverse = ['f', 'f'] from rfl]
    simp only [List.isPrefixOf, Bool.and_eq_false_iff]
    left
    exact beq_eq_false_iff_ne.mpr fun he => digit_ne hc (by decide) he.symm
  have hff2 : hasSuffixS (s ++ l) "ff.".data = false := by
    unfold hasSuffixS
    rw [hrev2, show "ff.".data.reverse = ['.', 'f', 'f'] from rfl]
    simp only [List.isPrefixOf, Bool.and_eq_false_iff]
    left
    exact beq_eq_false_iff_ne.mpr fun he => digit_ne hc (by decide) he.symm
  unfold ffStep
  rw [hff, hff2]
  simp

lemma extractLoc_sep {c : Char} (hcd : c.isDigit = false) {l : Str} (hl : l ≠ [])
    (hld : l.all Char.isDigit = true) : extractLocTail (c :: l) = l := by
  unfold extractLocTail
  have hdw : (c :: l).dropWhile (fun x => !x.isDigit) = l := by
    rw [List.dropWhile_cons, if_pos (by simp [hcd])]
    cases l with
    | nil => exact absurd rfl hl
    | cons d t =>
      simp only [List.all_cons, Bool.and_eq_true] at hld
      rw [List.dropWhile_cons, if_neg (by simp [hld.1])]
  rw [hdw, if_neg hl]
  exact List.takeWhile_eq_self_iff.mpr fun x hx =>
    by simpa using digit_ne (List.all_eq_true.mp hld x hx) (by decide)

/-- Round trip for a tlg code followed by a space-separated numeric
locant.  The detection path never touches the store. -/
lemma getURN_tlg_sep (d : Store) (a b l : Str)
    (ha : a ≠ []) (had : a.all Char.isDigit = true)
    (hb : b ≠ []) (hbd : b.all Char.isDigit = true)
    (hl : l ≠ []) (hld : l.all Char.isDigit = true) :
    GetURN d ("tlg".data ++ (a ++ '.' :: ("tlg".data ++ (b ++ ' ' :: l)))) =
      "urn:cts:greekLit:".data ++ "tlg".data ++ a ++ '.' :: "tlg".data ++ b ++
        ".perseus-grc2:".data ++ l := by
  have hrefne : "tlg".data ++ (a ++ '.' :: ("tlg".data ++ (b ++ ' ' :: l))) ≠ ([] : Str) := by
    intro hcon
    rw [List.append_eq_nil] at hcon
    exact absurd hcon.1 (by decide)
  have hshape : "tlg".data ++ (a ++ '.' :: ("tlg".data ++ (b ++ ' ' :: l))) =
      ("tlg".data ++ (a ++ '.' :: ("tlg".data ++ (b ++ [' '])))) ++ l := by
    simp [List.append_assoc]
  have hffs : ffStep ("tlg".data ++ (a ++ '.' :: ("tlg".data ++ (b ++ ' ' :: l)))) =
      "tlg".data ++ (a ++ '.' :: ("tlg".data ++ (b ++ ' ' :: l))) := by
    rw [hshape]
    exact ffStep_digit_last hl hld
  have hmatch := matchURNAt_sep "tlg".data a b ' ' l ha had hb hbd (by decide) (by decide)
    (by decide)
  have hfind := findPat_head hmatch hrefne
  have hdet : detectURN ("tlg".data ++ (a ++ '.' :: ("tlg".data ++ (b ++ ' ' :: l)))) =
      some ("tlg".data ++ a ++ '.' :: "tlg".data ++ b ++ [] ++ []) := by
    unfold detectURN
    rw [hfind]
  have hcodeeq : "tlg".data ++ a ++ '.' :: "tlg".data ++ b ++ ([] : Str) ++ ([] : Str) =
      "tlg".data ++ (a ++ '.' :: ("tlg".data ++ b)) := by
    simp [List.append_assoc]
  have hcodene : "tlg".data ++ (a ++ '.' :: ("tlg".data ++ b)) ≠ ([] : Str) := by
    intro hcon
    rw [List.append_eq_nil] at hcon
    exact absurd hcon.1 (by decide)
  have hshape2 : "tlg".data ++ (a ++ '.' :: ("tlg".data ++ (b ++ ' ' :: l))) =
      ("tlg".data ++ (a ++ '.' :: ("tlg".data ++ b))) ++ (' ' :: l) := by
    simp [List.append_assoc]
  have hnocolon : (':' : Char) ∉ "tlg".data ++ (a ++ '.' :: ("tlg".data ++ b)) := by
    intro hmem
    simp only [List.mem_append, List.mem_cons] at hmem
    rcases hmem with h | h | h | h | h
    · exact absurd h (by decide)
    · exact absurd (List.all_eq_true.mp had _ h) (by decide)
    · exact absurd h (by decide)
    · exact absurd h (by decide)
    · exact absurd (List.all_eq_true.mp hbd _ h) (by decide)
  unfold GetURN
  rw [if_neg hrefne]
  simp only [hffs, hdet, hcodeeq]
  simp only [formatExistingURN]
  rw [hshape2, afterFirst_prefix _ hcodene, extractLoc_sep (by decide) hl hld,
    containsS_of_prefix (isPrefixOf_append_self _ _) hcodene,
    not_containsS_of_char (show (':' : Char) ∈ "urn:cts:greekLit".data by decide) hnocolon]
  simp [List.append_assoc, hl]

/-- Round trip for a phi code followed by a space-separated numeric
locant: the tlg pattern finds no match (the reference has no 't'), the
phi pattern matches. -/
lemma getURN_phi_sep (d : Store) (a b l : Str)
    (ha : a ≠ []) (had : a.all Char.isDigit = true)
    (hb : b ≠ []) (hbd : b.all Char.isDigit = true)
    (hl : l ≠ []) (hld : l.all Char.isDigit = true) :
    GetURN d ("phi".data ++ (a ++ '.' :: ("phi".data ++ (b ++ ' ' :: l)))) =
      "urn:cts:latinLit:".data ++ "phi".data ++ a ++ '.' :: "phi".data ++ b ++
        ".perseus-lat2:".data ++ l := by
  have hrefne : "phi".data ++ (a ++ '.' :: ("phi".data ++ (b ++ ' ' :: l))) ≠ ([] : Str) := by
    intro hcon
    rw [List.append_eq_nil] at hcon
    exact absurd hcon.1 (by decide)
  have hshape : "phi".data ++ (a ++ '.' :: ("phi".data ++ (b ++ ' ' :: l))) =
      ("phi".data ++ (a ++ '.' :: ("phi".data ++ (b ++ [' '])))) ++ l := by
    simp [List.append_assoc]
  have hffs : ffStep ("phi".data ++ (a ++ '.' :: ("phi".data ++ (b ++ ' ' :: l)))) =
      "phi".data ++ (a ++ '.' :: ("phi".data ++ (b ++ ' ' :: l))) := by
    rw [hshape]
    exact ffStep_digit_last hl hld
  have hnot : ∀ c ∈ "phi".data ++ (a ++ '.' :: ("phi".data ++ (b ++ ' ' :: l))), c ≠ 't' := by
    intro c hmem he
    subst he
    rcases List.mem_append.mp hmem with h | h
    · exact absurd h (by decide)
    · rcases List.mem_append.mp h with h | h
      · exact absurd (List.all_eq_true.mp had _ h) (by decide)
      · rcases List.mem_cons.mp h with h | h
        · exact absurd h (by decide)
        · rcases List.mem_append.mp h with h | h
          · exact absurd h (by decide)
          · rcases List.mem_append.mp h with h | h
            · exact absurd (List.all_eq_true.mp hbd _ h) (by decide)
            · rcases List.mem_cons.mp h with h | h
              · exact absurd h (by decide)
              · exact absurd (List.all_eq_true.mp hld _ h) (by decide)
  have htlg : findPat "tlg".data ("phi".data ++ (a ++ '.' :: ("phi".data ++ (b ++ ' ' :: l)))) =
      none := findPat_none 't' "lg".data _ hnot
  have hmatch := matchURNAt_sep "phi".data a b ' ' l ha had hb hbd (by decide) (by decide)
    (by decide)
  have hfind := findPat_head hmatch hrefne
  have hdet : detectURN ("phi".data ++ (a ++ '.' :: ("phi".data ++ (b ++ ' ' :: l)))) =
      some ("phi".data ++ a ++ '.' :: "phi".data ++ b ++ [] ++ []) := by
    unfold detectURN
    rw [htlg, hfind]
  have hcodeeq : "phi".data ++ a ++ '.' :: "phi".data ++ b ++ ([] : Str) ++ ([] : Str) =
      "phi".data ++ (a ++ '.' :: ("phi".data ++ b)) := by
    simp [List.append_assoc]
  have hcodene : "phi".data ++ (a ++ '.' :: ("phi".data ++ b)) ≠ ([] : Str) := by
    intro hcon
    rw [List.append_eq_nil] at hcon
    exact absurd hcon.1 (by decide)
  have hshape2 : "phi".data ++ (a ++ '.' :: ("phi".data ++ (b ++ ' ' :: l))) =
      ("phi".data ++ (a ++ '.' :: ("phi".data ++ b))) ++ (' ' :: l) := by
    simp [List.append_assoc]
  have hnot2 : ('t' : Char) ∉ "phi".data ++ (a ++ '.' :: ("phi".data ++ b)) := by
    intro hmem
    rcases List.mem_append.mp hmem with h | h
    · exact absurd h (by decide)
    · rcases List.mem_append.mp h with h | h
      · exact absurd (List.all_eq_true.mp had _ h) (by decide)
      · rcases List.mem_cons.mp h with h | h
        · exact absurd h (by decide)
        · rcases List.mem_append.mp h with h | h
          · exact absurd h (by decide)
          · exact absurd (List.all_eq_true.mp hbd _ h) (by decide)
  have hnocolon : (':' : Char) ∉ "phi".data ++ (a ++ '.' :: ("phi".data ++ b)) := by
    intro hmem
    rcases List.mem_append.mp hmem with h | h
    · exact absurd h (by decide)
    · rcases List.mem_append.mp h with h | h
      · exact absurd (List.all_eq_true.mp had _ h) (by decide)
      · rcases List.mem_cons.mp h with h | h
        · exact absurd h (by decide)
        · rcases List.mem_append.mp h with h | h
          · exact absurd h (by decide)
          · exact absurd (List.all_eq_true.mp hbd _ h) (by decide)
  unfold GetURN
  rw [if_neg hrefne]
  simp only [hffs, hdet, hcodeeq]
  simp only [formatExistingURN]
  rw [hshape2, afterFirst_prefix _ hcodene, extractLoc_sep (by decide) hl hld,
    not_containsS_of_char (show ('t' : Char) ∈ "tlg".data by decide) hnot2,
    containsS_of_prefix (isPrefixOf_append_self _ _) hcodene,
    not_containsS_of_char (show (':' : Char) ∈ "urn:cts:latinLit".data by decide) hnocolon]
  simp [List.append_assoc, hl]

/-- Round trip for a tlg code with a colon-attached numeric locant: the
optional colon group of the pattern absorbs the locant into the matched
code, and the edition suffix is appended after it. -/
lemma getURN_tlg_colon (d : Store) (a b l : Str)
    (ha : a ≠ []) (had : a.all Char.isDigit = true)
    (hb : b ≠ []) (hbd : b.all Char.isDigit = true)
    (hl : l ≠ []) (hld : l.all Char.isDigit = true) :
    GetURN d ("tlg".data ++ (a ++ '.' :: ("tlg".data ++ (b ++ ':' :: l)))) =
      "urn:cts:greekLit:".data ++ "tlg".data ++ a ++ '.' :: "tlg".data ++ b ++ ':' :: l ++
        ".perseus-grc2".data := by
  have hrefne : "tlg".data ++ (a ++ '.' :: ("tlg".data ++ (b ++ ':' :: l))) ≠ ([] : Str) := by
    intro hcon
    rw [List.append_eq_nil] at hcon
    exact absurd hcon.1 (by decide)
  have hshape : "tlg".data ++ (a ++ '.' :: ("tlg".data ++ (b ++ ':' :: l))) =
      ("tlg".data ++ (a ++ '.' :: ("tlg".data ++ (b ++ [':'])))) ++ l := by
    simp [List.append_assoc]
  have hffs : ffStep ("tlg".data ++ (a ++ '.' :: ("tlg".data ++ (b ++ ':' :: l)))) =
      "tlg".data ++ (a ++ '.' :: ("tlg".data ++ (b ++ ':' :: l))) := by
    rw [hshape]
    exact ffStep_digit_last hl hld
  have hmatch := matchURNAt_colon "tlg".data a b l ha had hb hbd hl hld
  have hfind := findPat_head hmatch hrefne
  have hdet : detectURN ("tlg".data ++ (a ++ '.' :: ("tlg".data ++ (b ++ ':' :: l)))) =
      some ("tlg".data ++ a ++ '.' :: "tlg".data ++ b ++ (':' :: l) ++ []) := by
    unfold detectURN
    rw [hfind]
  have hcodeeq : "tlg".data ++ a ++ '.' :: "tlg".data ++ b ++ (':' :: l) =
      "tlg".data ++ (a ++ '.' :: ("tlg".data ++ (b ++ ':' :: l))) := by
    simp [List.append_assoc]
  have hcodene : "tlg".data ++ (a ++ '.' :: ("tlg".data ++ (b ++ ':' :: l))) ≠ ([] : Str) := by
    intro hcon
    rw [List.append_eq_nil] at hcon
    exact absurd hcon.1 (by decide)
  have hafter : afterFirstOccurrence
      ("tlg".data ++ (a ++ '.' :: ("tlg".data ++ (b ++ ':' :: l))))
      ("tlg".data ++ (a ++ '.' :: ("tlg".data ++ (b ++ ':' :: l)))) = ([] : Str) := by
    have h := afterFirst_prefix ([] : Str) hcodene
    rwa [List.append_nil] at h
  have hnou : ('u' : Char) ∉ "tlg".data ++ (a ++ '.' :: ("tlg".data ++ (b ++ ':' :: l))) := by
    intro hmem
    rcases List.mem_append.mp hmem with h | h
    · exact absurd h (by decide)
    · rcases List.mem_append.mp h with h | h
      · exact absurd (List.all_eq_true.mp had _ h) (by decide)
      · rcases List.mem_cons.mp h with h | h
        · exact absurd h (by decide)
        · rcases List.mem_append.mp h with h | h
          · exact absurd h (by decide)
          · rcases List.mem_append.mp h with h | h
            · exact absurd (List.all_eq_true.mp hbd _ h) (by decide)
            · rcases List.mem_cons.mp h with h | h
              · exact absurd h (by decide)
              · exact absurd (List.all_eq_true.mp hld _ h) (by decide)
  unfold GetURN
  rw [if_neg hrefne]
  simp only [hffs, hdet, List.append_nil, hcodeeq]
  simp only [formatExistingURN]
  rw [hafter,
    show extractLocTail ([] : Str) = [] from rfl,
    containsS_of_prefix (isPrefixOf_append_self _ _) hcodene,
    not_containsS_of_char (show ('u' : Char) ∈ "urn:cts:greekLit".data by decide) hnou]
  simp [List.append_assoc]

/-- Claim C4 counterexample: for a stoa tradition code with a numeric
locant, formatExistingURN has no stoa branch — resolve_identifier returns
the bare matched code, dropping the locant and adding neither the
namespace prefix nor an edition suffix. -/
theorem c4_counterexample :
    GetURN emptyStore "stoa0040.stoa001 28".data = "stoa0040.stoa001".data ∧
      containsS (GetURN emptyStore "stoa0040.stoa001 28".data) "28".data = false ∧
      containsS (GetURN emptyStore "stoa0040.stoa001 28".data) "urn:cts".data = false := by
  refine ⟨by decide, by decide, by decide⟩

/-- Claim C4 (amended): for tlg (Greek) and phi (Latin) embedded codes
with a whitespace-separated numeric locant, resolve_identifier returns the
structured identifier that preserves code and locant verbatim, inserting
the tradition namespace prefix and the tradition's default edition suffix
(round trip).  When the locant is attached with a colon it is absorbed
into the matched code, and the edition suffix follows the locant instead
of preceding it.  A stoa code is returned bare (no namespace, suffix, or
locant). -/
theorem embedded_urn_roundtrip (d : Store) (a b l : Str)
    (ha : a ≠ []) (had : a.all Char.isDigit = true)
    (hb : b ≠ []) (hbd : b.all Char.isDigit = true)
    (hl : l ≠ []) (hld : l.all Char.isDigit = true) :
    GetURN d ("tlg".data ++ (a ++ '.' :: ("tlg".data ++ (b ++ ' ' :: l)))) =
      "urn:cts:greekLit:".data ++ "tlg".data ++ a ++ '.' :: "tlg".data ++ b ++
        ".perseus-grc2:".data ++ l ∧
    GetURN d ("phi".data ++ (a ++ '.' :: ("phi".data ++ (b ++ ' ' :: l)))) =
      "urn:cts:latinLit:".data ++ "phi".data ++ a ++ '.' :: "phi".data ++ b ++
        ".perseus-lat2:".data ++ l ∧
    GetURN d ("tlg".data ++ (a ++ '.' :: ("tlg".data ++ (b ++ ':' :: l)))) =
      "urn:cts:greekLit:".data ++ "tlg".data ++ a ++ '.' :: "tlg".data ++ b ++ ':' :: l ++
        ".perseus-grc2".data :=
  ⟨getURN_tlg_sep d a b l ha had hb hbd hl hld,
   getURN_phi_sep d a b l ha had hb hbd hl hld,
   getURN_tlg_colon d a b l ha had hb hbd hl hld⟩

/-- Witness for `embedded_urn_roundtrip` at the code tlg0012.tlg001 with
locant 28. -/
theorem embedded_urn_roundtrip_witness :
    ("0012".data ≠ ([] : Str) ∧ "0012".data.all Char.isDigit = true ∧
      "001".data ≠ ([] : Str) ∧ "001".data.all Char.isDigit = true ∧
      "28".data ≠ ([] : Str) ∧ "28".data.all Char.isDigit = true) ∧
    GetURN emptyStore
        ("tlg".data ++ ("0012".data ++ '.' :: ("tlg".data ++ ("001".data ++ ' ' :: "28".data)))) =
      "urn:cts:greekLit:".data ++ "tlg".data ++ "0012".data ++ '.' :: "tlg".data ++
        "001".data ++ ".perseus-grc2:".data ++ "28".data :=
  ⟨⟨by decide, by decide, by decide, by decide, by decide, by decide⟩,
   (embedded_urn_roundtrip emptyStore "0012".data "001".data "28".data
      (by decide) (by decide) (by decide) (by decide) (by decide) (by decide)).1⟩

